import Mathlib

/-!
Verification of the content-processing engine of `de-exam-bot`
(`src/de_exam_bot/processing/content_processor.py`).

Python strings are modelled as `List Char`; Python exceptions are modelled
with `Except String`; a Selenium driver is modelled as a `PageSource` record
whose every query is fallible.  Character classes (`\d`, `\w`, `\s`) and
`str.strip` / `str.lower` are modelled at their ASCII meaning (the inputs of
interest are ASCII); Python's `re` additionally accepts some Unicode
characters in these classes, which is immaterial here.
-/

namespace DeExamBot

/-- Python strings are modelled as lists of characters. -/
abbrev Str := List Char

/-- Turn a Lean string literal into the `Str` model. -/
def strL (s : String) : Str := s.toList

/-- Python whitespace, ASCII part: the characters matched by `\s` and
stripped by `str.strip()` (space, tab, newline, carriage return, vertical
tab, form feed). -/
def isPyWs (c : Char) : Bool :=
  c = ' ' || c = '\t' || c = '\n' || c = '\r' || c = '\x0b' || c = '\x0c'

/-- The class `[ \t]`: horizontal whitespace. -/
def isHT (c : Char) : Bool := c = ' ' || c = '\t'

/-- Python `a or b` on strings: `b` when `a` is empty (or `None`), else `a`. -/
def pyOrStr (a b : Str) : Str := if a = [] then b else a

/-- Python `x or b` where `x` is `str | None` (e.g. `get_attribute` result). -/
def pyOrOpt (a : Option Str) (b : Str) : Str :=
  match a with
  | none => b
  | some s => if s = [] then b else s

/-- Remove trailing Python whitespace (the right half of `str.strip()`). -/
def rstrip : Str → Str
  | [] => []
  | c :: t =>
    match rstrip t with
    | [] => if isPyWs c then [] else [c]
    | r => c :: r

/-- Python `str.strip()`: drop leading and trailing whitespace. -/
def pyStrip (s : Str) : Str := rstrip (s.dropWhile isPyWs)

/-- Python `needle in hay`: substring test. -/
def isSubstr (n : Str) : Str → Bool
  | [] => n.isPrefixOf []
  | c :: t => n.isPrefixOf (c :: t) || isSubstr n t

/-- Python `s.lower()` (ASCII). -/
def pyLower (s : Str) : Str := s.map Char.toLower

/-- Python `s.split('\n')`: always non-empty, keeps empty pieces. -/
def splitNL : Str → List Str
  | [] => [[]]
  | c :: t =>
    if c = '\n' then [] :: splitNL t
    else
      match splitNL t with
      | [] => [[c]]
      | l :: ls => (c :: l) :: ls

/-- Python `'\n'.join(lines)`. -/
def joinNL : List Str → Str
  | [] => []
  | [l] => l
  | l :: l' :: ls => l ++ '\n' :: joinNL (l' :: ls)

/-- Model of `re.sub(r'\s+', ' ', s)` unrolled: each maximal whitespace run becomes a
single space.  The Boolean state records whether we are inside a run whose
replacement space was already emitted. -/
def collapseWSAux : Bool → Str → Str
  | _, [] => []
  | inRun, c :: t =>
    if isPyWs c then
      if inRun then collapseWSAux true t else ' ' :: collapseWSAux true t
    else c :: collapseWSAux false t

/-- Model of `re.sub(r'\s+', ' ', s)`. -/
def collapseWS (s : Str) : Str := collapseWSAux false s

/-- Model of `re.sub(r'[ \t]+', ' ', s)` unrolled: each maximal run of spaces/tabs
becomes a single space. -/
def collapseHTAux : Bool → Str → Str
  | _, [] => []
  | inRun, c :: t =>
    if isHT c then
      if inRun then collapseHTAux true t else ' ' :: collapseHTAux true t
    else c :: collapseHTAux false t

/-- Model of `re.sub(r'[ \t]+', ' ', s)`. -/
def collapseHT (s : Str) : Str := collapseHTAux false s

/-- Count the newlines of a string. -/
def countNL (s : Str) : Nat := s.countP (· = '\n')

/-- Replacement performed by `re.sub(r'\n\s*\n\s*\n+', '\n\n', ·)` on one
maximal whitespace run `r`: the leftmost match starts at the first newline of
the run and — earlier greedy quantifiers being maximised first — ends exactly
at its last newline, provided the run holds at least three newlines; the
whitespace before the first and after the last newline survives. -/
def nnnFlushRun (r : Str) : Str :=
  if 3 ≤ countNL r then
    r.takeWhile (· ≠ '\n') ++ '\n' :: '\n' :: (r.reverse.takeWhile (· ≠ '\n')).reverse
  else r

/-- Scanner for `re.sub(r'\n\s*\n\s*\n+', '\n\n', ·)`: `pend` is the
(reversed) maximal whitespace run currently being read; a match can only
start at a newline and never extends past the run, so runs are rewritten
independently by `nnnFlushRun`. -/
def nnnAux (pend : Str) : Str → Str
  | [] => nnnFlushRun pend.reverse
  | c :: t =>
    if isPyWs c then nnnAux (c :: pend) t
    else nnnFlushRun pend.reverse ++ c :: nnnAux [] t

/-- Model of `re.sub(r'\n\s*\n\s*\n+', '\n\n', s)`. -/
def subNNN (s : Str) : Str := nnnAux [] s

/-!  A small engine for the exact subset of Python `re` used by the noise
patterns of `_get_default_config`: every quantifier there applies to a
single-character item, so a pattern is a sequence of (character class,
quantifier) items matched with Python's backtracking order (greedy
quantifiers maximise, lazy ones minimise, earlier quantifiers have
priority). -/

/-- Single-character classes occurring in the noise patterns. -/
inductive CC
  | lit (c : Char)       -- a literal character (case-insensitive under `re.IGNORECASE`)
  | digit                -- `\d`
  | wordc                -- `\w`
  | space                -- `\s`
  | dot                  -- `.` (anything but a newline; `re.DOTALL` unset)
  | anyOf (cs : List Char)  -- a class such as `[;&]`
deriving DecidableEq

/-- Quantifiers occurring in the noise patterns: `{n}`; greedy `{n,}` /
`+` (= `{1,}`) / implicit single (= `{1}`); lazy `*?` (= lazy `{0,}`). -/
inductive Quant
  | exact (n : Nat)
  | atLeastG (n : Nat)
  | atLeastL (n : Nat)
deriving DecidableEq

/-- One quantified single-character item of a pattern. -/
structure Item where
  cc : CC
  q : Quant
deriving DecidableEq

/-- Does character `x` belong to class `cc` (`icase` = `re.IGNORECASE`)? -/
def ccMatches (icase : Bool) : CC → Char → Bool
  | .lit c, x => if icase then x.toLower = c.toLower else x = c
  | .digit, x => '0' ≤ x && x ≤ '9'
  | .wordc, x => x.isAlphanum || x = '_'
  | .space, x => isPyWs x
  | .dot, x => !(x = '\n')
  | .anyOf cs, x => cs.contains x

/-- Backtracking matcher: `matchHere icase fuel items s` returns the input
remaining after a match of `items` starting at the head of `s`, following
Python's preference order, or `none`.  `fuel` only bounds the recursion
depth; every call strictly decreases `chars left + items left + pending
quantifier counts`, so with `fuel` above that bound (see `fuelFor`) the
`fuel = 0` branch is unreachable. -/
def matchHere (icase : Bool) : Nat → List Item → Str → Option Str
  | 0, _, _ => none
  | _ + 1, [], s => some s
  | fuel + 1, ⟨cc, q⟩ :: rest, s =>
    match q with
    | .exact 0 => matchHere icase fuel rest s
    | .exact (n + 1) =>
      match s with
      | [] => none
      | c :: t =>
        if ccMatches icase cc c then matchHere icase fuel (⟨cc, .exact n⟩ :: rest) t
        else none
    | .atLeastG (n + 1) =>
      match s with
      | [] => none
      | c :: t =>
        if ccMatches icase cc c then matchHere icase fuel (⟨cc, .atLeastG n⟩ :: rest) t
        else none
    | .atLeastG 0 =>
      match s with
      | [] => matchHere icase fuel rest []
      | c :: t =>
        if ccMatches icase cc c then
          match matchHere icase fuel (⟨cc, .atLeastG 0⟩ :: rest) t with
          | some r => some r
          | none => matchHere icase fuel rest s
        else matchHere icase fuel rest s
    | .atLeastL (n + 1) =>
      match s with
      | [] => none
      | c :: t =>
        if ccMatches icase cc c then matchHere icase fuel (⟨cc, .atLeastL n⟩ :: rest) t
        else none
    | .atLeastL 0 =>
      match matchHere icase fuel rest s with
      | some r => some r
      | none =>
        match s with
        | [] => none
        | c :: t =>
          if ccMatches icase cc c then matchHere icase fuel (⟨cc, .atLeastL 0⟩ :: rest) t
          else none

/-- The pending-count weight of a quantifier. -/
def qWeight : Quant → Nat
  | .exact n => n
  | .atLeastG n => n
  | .atLeastL n => n

/-- Fuel strictly above the maximal recursion depth of `matchHere` on
pattern `pat` and input `s`. -/
def fuelFor (pat : List Item) (s : Str) : Nat :=
  pat.foldl (fun a it => a + qWeight it.q + 1) 0 + s.length + 1

/-- The `re.sub` scan: leftmost, non-overlapping matches, continuing after each
match; on an (impossible for our patterns) empty match, emit the replacement
and advance one character.  The outer fuel is `s.length + 1` and decreases
at least as fast as the input, so the `fuel = 0` branch is unreachable. -/
def scanSub (icase : Bool) (pat : List Item) (repl : Str) : Nat → Str → Str
  | 0, s => s
  | _ + 1, [] =>
    match matchHere icase (fuelFor pat []) pat [] with
    | some _ => repl
    | none => []
  | fuel + 1, c :: t =>
    match matchHere icase (fuelFor pat (c :: t)) pat (c :: t) with
    | some rest =>
      if rest.length < (c :: t).length then repl ++ scanSub icase pat repl fuel rest
      else repl ++ c :: scanSub icase pat repl fuel t
    | none => c :: scanSub icase pat repl fuel t

/-- Model of `re.sub(pattern, repl, s, flags=re.IGNORECASE if icase)`. -/
def subRegex (icase : Bool) (pat : List Item) (repl : Str) (s : Str) : Str :=
  scanSub icase pat repl (s.length + 1) s

/-- Shorthand: a literal pattern fragment. -/
def lits (s : String) : List Item :=
  s.toList.map (fun c => ⟨CC.lit c, Quant.exact 1⟩)

/-- Shorthand: `\d{n}`. -/
def dN (n : Nat) : Item := ⟨CC.digit, Quant.exact n⟩

/-- Shorthand: `.*?`. -/
def lazyDot : Item := ⟨CC.dot, Quant.atLeastL 0⟩

/-- Shorthand: `[;&]`. -/
def semAmp : Item := ⟨CC.anyOf [';', '&'], Quant.exact 1⟩

/-- A configured noise pattern: either one that `re.compile` accepts
(carrying its meaning as an item list) or a malformed one whose compilation
raises `re.error` (carrying the error message).  The Python code stores the
pattern *strings* unexamined; compilation only happens when `re.sub` runs. -/
inductive Pat
  | valid (items : List Item)
  | malformed (msg : String)

/-- The 22 `noise_patterns` of `_get_default_config`, in source order. -/
def defaultNoisePatterns : List Pat := [
  -- Date/Time patterns
  .valid [dN 4, ⟨.lit '-', .exact 1⟩, dN 2, ⟨.lit '-', .exact 1⟩, dN 2],
  .valid [dN 2, ⟨.lit '/', .exact 1⟩, dN 2, ⟨.lit '/', .exact 1⟩, dN 4],
  .valid [dN 2, ⟨.lit '.', .exact 1⟩, dN 2, ⟨.lit '.', .exact 1⟩, dN 4],
  .valid [dN 2, ⟨.lit ':', .exact 1⟩, dN 2, ⟨.lit ':', .exact 1⟩, dN 2],
  .valid [dN 2, ⟨.lit ':', .exact 1⟩, dN 2],
  .valid (lits "timestamp" ++ [lazyDot, ⟨.digit, .atLeastG 1⟩]),
  .valid (lits "last" ++ [lazyDot] ++ lits "updated" ++ [lazyDot, ⟨.digit, .atLeastG 1⟩]),
  -- Analytics & Tracking
  .valid (lits "_ga=" ++ [lazyDot, semAmp]),
  .valid (lits "_gid=" ++ [lazyDot, semAmp]),
  .valid (lits "__utm" ++ [lazyDot] ++ lits "=" ++ [lazyDot, semAmp]),
  .valid (lits "fbclid=" ++ [lazyDot, semAmp]),
  .valid (lits "gclid=" ++ [lazyDot, semAmp]),
  -- Session Management
  .valid (lits "sessionId" ++ [lazyDot] ++ lits "=" ++ [lazyDot, semAmp]),
  .valid (lits "PHPSESSID" ++ [lazyDot] ++ lits "=" ++ [lazyDot, semAmp]),
  .valid (lits "JSESSIONID" ++ [lazyDot] ++ lits "=" ++ [lazyDot, semAmp]),
  .valid (lits "ASP.NET_SessionId" ++ [lazyDot] ++ lits "=" ++ [lazyDot, semAmp]),
  -- Security & Cache
  .valid (lits "csrftoken" ++ [lazyDot] ++ lits "=" ++ [lazyDot, semAmp]),
  .valid (lits "_token" ++ [lazyDot] ++ lits "=" ++ [lazyDot, semAmp]),
  .valid (lits "cache_" ++ [⟨.wordc, .atLeastG 1⟩]),
  .valid (lits "v=" ++ [⟨.digit, .atLeastG 10⟩]),
  .valid (lits "_=" ++ [⟨.digit, .atLeastG 10⟩]),
  .valid (lits "cb=" ++ [⟨.digit, .atLeastG 1⟩])]

/-- The noise loop of `_filter_noise_from_text`:
`for pattern in self.noise_patterns: filtered = re.sub(pattern, '', filtered,
flags=re.IGNORECASE)`.  A malformed pattern makes `re.sub` raise `re.error`,
modelled by the `Except` error channel. -/
def applyNoise : List Pat → Str → Except String Str
  | [], s => .ok s
  | .malformed m :: _, _ => .error m
  | .valid items :: ps, s => applyNoise ps (subRegex true items [] s)

/-- The whitespace-normalization tail of `_filter_noise_from_text`,
dispatching on `content_type`. -/
def wsNormalize (ct : Str) (filtered : Str) : Str :=
  if ct = strL "html" then
    pyStrip (subNNN (collapseHT filtered))
  else if ct = strL "body_text" then
    joinNL ((((splitNL filtered).map
      (fun line => pyStrip (collapseWS line))).filter (· ≠ [])))
  else
    pyStrip (collapseWS filtered)

/-- Model of `ContentProcessor._filter_noise_from_text(text, content_type)`: remove
every noise pattern, then normalize whitespace; the enclosing
`try/except` returns the *original* text when anything inside raises
(which happens exactly when a malformed pattern is reached). -/
def filter_noise_from_text (noisePatterns : List Pat) (text : Str) (ct : Str) : Str :=
  match applyNoise noisePatterns text with
  | .error _ => text
  | .ok filtered => wsNormalize ct filtered

/-!  Processor construction (`ContentProcessor.__init__`).  Only the two
configuration values the extraction logic reads are modelled:
`noise_patterns` and `enable_noise_filtering` (the other stored lists and
`processing_options` are never consulted by the code — the 10 / 100 limits
are hard-coded literals). -/

/-- The configuration slice the processor reads. -/
structure PConfig where
  noise_patterns : List Pat
  enable_noise_filtering : Bool

/-- Model of `ContentProcessor.__init__`: stores the configured values; the pattern
strings are *not* compiled or validated here. -/
def mkProcessor (cfg : PConfig) : PConfig := cfg

/-- The constructor viewed with its (never used) ability to raise: nothing in the
constructor touches `re`, so it always succeeds. -/
def mkProcessorE (cfg : PConfig) : Except String PConfig := .ok (mkProcessor cfg)

/-- The default processor: the 22 default noise patterns,
`enable_noise_filtering = True`. -/
def defaultProcessor : PConfig := mkProcessor ⟨defaultNoisePatterns, true⟩

/-!  The Page Source model.  Every Selenium query may raise
(`WebDriverException` etc.); each is modelled as `Except String`. -/

/-- One element handle.  `find_elements_count s` stands for
`len(el.find_elements(By.TAG_NAME, s))` — the code only ever takes the
length of a nested query. -/
structure Element where
  tag_name : Except String Str
  eltext : Except String Str
  get_attribute : Str → Except String (Option Str)
  is_displayed : Except String Bool
  is_enabled : Except String Bool
  find_elements_count : Str → Except String Nat

/-- The driver handle consumed by the processor. -/
structure PageSource where
  page_source : Except String Str
  title : Except String Str
  current_url : Except String Str
  find_element_tag : Str → Except String Element
  find_elements_tag : Str → Except String (List Element)
  find_elements_css : Str → Except String (List Element)

/-- A page source whose every query raises (message `m`). -/
def allFail (m : String) : PageSource where
  page_source := .error m
  title := .error m
  current_url := .error m
  find_element_tag := fun _ => .error m
  find_elements_tag := fun _ => .error m
  find_elements_css := fun _ => .error m

/-!  Raw extraction. -/

/-- Model of `_get_body_text`: body element's text, `""` on any failure (bare
`except`). -/
def get_body_text (ps : PageSource) : Str :=
  match (do
    let body ← ps.find_element_tag (strL "body")
    let t ← body.eltext
    pure (pyOrStr t [])) with
  | .ok s => s
  | .error _ => []

/-- The `raw` mapping: the six fixed keys on success, the single `error`
key on failure, mirroring the two return points of `_extract_raw_content`. -/
inductive RawResult
  | ok (full_html title url body_text important_text forms_html : Str)
  | err (msg : String)
deriving DecidableEq

/-- Model of `_extract_raw_content`: read markup, title, url, body text (the latter
never raises) in source order, then — when noise filtering is enabled —
pass every field through `_filter_noise_from_text` with its content type
(`full_html`/`forms_html` ↦ `html`, `title`/`url` ↦ `text`,
`body_text`/`important_text` ↦ `body_text`).  `_extract_important_text` and
`_extract_forms_html` are the two placeholder extractors that always return
`""`.  Any raise inside is caught and becomes `{error: str(e)}`. -/
def extract_raw_content (proc : PConfig) (ps : PageSource) : RawResult :=
  match (do
    let fullHtml ← ps.page_source
    let t ← ps.title
    let u ← ps.current_url
    pure (fullHtml, pyOrStr t [], pyOrStr u [])) with
  | .error e => .err e
  | .ok (fullHtml, t, u) =>
    let bodyText := get_body_text ps
    if proc.enable_noise_filtering then
      .ok (filter_noise_from_text proc.noise_patterns fullHtml (strL "html"))
        (filter_noise_from_text proc.noise_patterns t (strL "text"))
        (filter_noise_from_text proc.noise_patterns u (strL "text"))
        (filter_noise_from_text proc.noise_patterns bodyText (strL "body_text"))
        (filter_noise_from_text proc.noise_patterns [] (strL "body_text"))
        (filter_noise_from_text proc.noise_patterns [] (strL "html"))
    else
      .ok fullHtml t u bodyText [] []

/-!  Structured extraction. -/

/-- Map `f i _` over a list, numbering from `i0` (Python
`for i, x in enumerate(l)`). -/
def enumMapFrom (f : Nat → α → β) : Nat → List α → List β
  | _, [] => []
  | i, a :: t => f i a :: enumMapFrom f (i + 1) t

/-- One entry of `forms`: the full record, or `{index, error}` when any of
the per-form queries raises. -/
inductive FormEntry
  | ok (index : Nat) (action method id cls : Str) (inputs_count buttons_count : Nat)
      (is_visible : Bool) (text_content : Str)
  | err (index : Nat) (msg : Str)
deriving DecidableEq

/-- The index carried by a form entry (both constructors store one). -/
def FormEntry.index : FormEntry → Nat
  | .ok i _ _ _ _ _ _ _ _ => i
  | .err i _ => i

/-- The fallible reads of one iteration of the forms loop, in source
order. -/
def readForm (f : Element) :
    Except String (Option Str × Option Str × Option Str × Option Str ×
      Nat × Nat × Bool × Str) := do
  let action ← f.get_attribute (strL "action")
  let method ← f.get_attribute (strL "method")
  let fid ← f.get_attribute (strL "id")
  let cls ← f.get_attribute (strL "class")
  let ic ← f.find_elements_count (strL "input")
  let bc ← f.find_elements_count (strL "button")
  let vis ← f.is_displayed
  let tx ← f.eltext
  pure (action, method, fid, cls, ic, bc, vis, tx)

/-- The per-form body of `_extract_forms_info`'s loop; on a raise the entry
degrades to `{'index': i, 'error': 'extraction_failed'}`. -/
def mkFormEntry (i : Nat) (f : Element) : FormEntry :=
  match readForm f with
  | .ok (action, method, fid, cls, ic, bc, vis, tx) =>
    .ok i (pyOrOpt action []) (pyOrOpt method (strL "GET"))
      (pyOrOpt fid []) (pyOrOpt cls []) ic bc vis (pyStrip tx)
  | .error _ => .err i (strL "extraction_failed")

/-- Model of `_extract_forms_info`: enumerate the `form` elements; `[]` when the
enumeration itself raises. -/
def extract_forms_info (ps : PageSource) : List FormEntry :=
  match ps.find_elements_tag (strL "form") with
  | .error _ => []
  | .ok forms => enumMapFrom mkFormEntry 0 forms

/-- One entry of `buttons`. -/
inductive ButtonEntry
  | ok (index : Nat) (tag ty text id cls : Str) (is_visible is_enabled : Bool)
  | err (index : Nat) (msg : Str)
deriving DecidableEq

/-- The index carried by a button entry. -/
def ButtonEntry.index : ButtonEntry → Nat
  | .ok i _ _ _ _ _ _ _ => i
  | .err i _ => i

/-- The fallible reads of one iteration of the buttons loop, in source
order; the `value` attribute is only queried when the stripped element text
is empty (Python `or` short-circuits inside
`(element.text.strip() or element.get_attribute('value') or "")`). -/
def readButton (el : Element) :
    Except String (Str × Option Str × Str × Option Str × Option Str ×
      Bool × Bool) := do
  let tag ← el.tag_name
  let ty ← el.get_attribute (strL "type")
  let tx ← el.eltext
  let txt ←
    if pyStrip tx = [] then do
      let v ← el.get_attribute (strL "value")
      pure (pyOrOpt v [])
    else pure (pyStrip tx)
  let bid ← el.get_attribute (strL "id")
  let cls ← el.get_attribute (strL "class")
  let vis ← el.is_displayed
  let en ← el.is_enabled
  pure (tag, ty, txt, bid, cls, vis, en)

/-- The per-element body of `_extract_buttons_info`'s loop, with the
`[:100]` truncation of the resolved display text. -/
def mkButtonEntry (i : Nat) (el : Element) : ButtonEntry :=
  match readButton el with
  | .ok (tag, ty, txt, bid, cls, vis, en) =>
    .ok i tag (pyOrOpt ty []) (txt.take 100) (pyOrOpt bid []) (pyOrOpt cls []) vis en
  | .error _ => .err i (strL "extraction_failed")

/-- Model of `_extract_buttons_info`: `button` elements, then
`input[type="submit"]` elements, concatenated and truncated to the first
10 combined; `[]` when either enumeration raises. -/
def extract_buttons_info (ps : PageSource) : List ButtonEntry :=
  match (do
    let buttons ← ps.find_elements_tag (strL "button")
    let submits ← ps.find_elements_css (strL "input[type=\"submit\"]")
    pure (buttons ++ submits)) with
  | .error _ => []
  | .ok allInteractive => enumMapFrom mkButtonEntry 0 (allInteractive.take 10)

/-- An abbreviated `registration_links` record. -/
structure RegLink where
  index : Nat
  text : Str
  href : Str
  title : Str
deriving DecidableEq

/-- One entry of `all_links`. -/
inductive LinkEntry
  | ok (index : Nat) (href text title target : Str)
      (is_external is_registration is_visible : Bool)
  | err (index : Nat) (msg : String)
deriving DecidableEq

/-- The index carried by a link entry. -/
def LinkEntry.index : LinkEntry → Nat
  | .ok i _ _ _ _ _ _ _ => i
  | .err i _ => i

/-- The registration keyword list of `_extract_links_info`. -/
def regKeywords : List Str :=
  [strL "anmeld", strL "register", strL "registration", strL "buchung",
   strL "enrollment", strL "signup", strL "einschreibung"]

/-- The fallible reads of one iteration of the links loop, in source order
(href, text, title, target, then `link.is_displayed()` inside the
`link_data` literal). -/
def readLink (l : Element) : Except String (Str × Str × Str × Str × Bool) := do
  let href ← l.get_attribute (strL "href")
  let tx ← l.eltext
  let title ← l.get_attribute (strL "title")
  let target ← l.get_attribute (strL "target")
  let vis ← l.is_displayed
  pure (pyOrOpt href [], pyStrip tx, pyOrOpt title [], pyOrOpt target [], vis)

/-- One iteration of the links loop producing the `all_links` entry: the
classification (`is_external`, `is_registration`) is pure and happens
after all fallible reads; a raise yields
`{'index': i, 'error': f'extraction_failed: {str(e)}'}`. -/
def mkLinkEntry (dom : Str) (i : Nat) (l : Element) : LinkEntry :=
  match readLink l with
  | .error e => .err i ("extraction_failed: " ++ e)
  | .ok (href, text, title, target, vis) =>
    let isExt := href ≠ [] && (strL "http").isPrefixOf href && !(isSubstr dom href)
    let isReg := href ≠ [] && regKeywords.any
      (fun k => isSubstr k (pyLower text) || isSubstr k (pyLower href))
    .ok i href text title target isExt isReg vis

/-- The `links` mapping: counters plus the two sequences on success, the
single `error` key on failure. -/
inductive LinksResult
  | ok (total_count with_href external_links : Nat)
      (registration_links : List RegLink) (all_links : List LinkEntry)
  | err (msg : String)
deriving DecidableEq

/-- The links loop: mirrors the running counters and the two growing lists
of `_extract_links_info`. -/
def linksLoop (dom : Str) : Nat → List Element → Nat → Nat →
    List RegLink → List LinkEntry → Nat × Nat × List RegLink × List LinkEntry
  | _, [], wh, ext, regs, all => (wh, ext, regs, all)
  | i, l :: t, wh, ext, regs, all =>
    match mkLinkEntry dom i l with
    | .err j m => linksLoop dom (i + 1) t wh ext regs (all ++ [.err j m])
    | .ok j href text title target isExt isReg vis =>
      let wh' := if href ≠ [] then wh + 1 else wh
      let ext' := if isExt then ext + 1 else ext
      let regs' := if isReg then regs ++ [⟨j, text, href, title⟩] else regs
      linksLoop dom (i + 1) t wh' ext' regs'
        (all ++ [.ok j href text title target isExt isReg vis])

/-- Model of `_extract_links_info`: enumerate the anchors, read
`current_domain = driver.current_url`, then run the loop; a raise outside
the per-link guard yields `{error: f'links_extraction_failed: {str(e)}'}`. -/
def extract_links_info (ps : PageSource) : LinksResult :=
  match (do
    let links ← ps.find_elements_tag (strL "a")
    let dom ← ps.current_url
    pure (links, dom)) with
  | .error e => .err ("links_extraction_failed: " ++ e)
  | .ok (links, dom) =>
    match linksLoop dom 0 links 0 0 [] [] with
    | (wh, ext, regs, all) => .ok links.length wh ext regs all

/-- The `structured` mapping: the three fixed keys, or the single `error`
key (the latter only reachable if a sub-extractor raised, which none can —
each catches all its exceptions). -/
inductive StructuredResult
  | ok (forms : List FormEntry) (buttons : List ButtonEntry) (links : LinksResult)
  | err (msg : String)
deriving DecidableEq

/-- Model of `_extract_structured_content`: three independently-guarded
sub-extractions; its own `except` branch is unreachable because each
sub-extractor is total. -/
def extract_structured_content (ps : PageSource) : StructuredResult :=
  .ok (extract_forms_info ps) (extract_buttons_info ps) (extract_links_info ps)

/-!  Orchestration (`process_page`). -/

/-- The `ProcessedContent` dataclass; `timestamp` models
`datetime.now()` passed in by the clock. -/
structure ProcessedContent where
  raw : RawResult
  structured : StructuredResult
  timestamp : Nat
deriving DecidableEq

/-- The `except` branch of `process_page`: an exception escaping the body
yields the degraded snapshot with `raw = structured = {error: str(e)}`. -/
def process_page_recover (t : Nat) : Except String ProcessedContent → ProcessedContent
  | .ok pc => pc
  | .error e => ⟨.err e, .err e, t⟩

/-- Model of `process_page`: run the two extraction phases (each total, catching its
own exceptions) and stamp the snapshot; the outer `try/except` is
`process_page_recover`. -/
def process_page (proc : PConfig) (ps : PageSource) (t : Nat) : ProcessedContent :=
  process_page_recover t
    (.ok ⟨extract_raw_content proc ps, extract_structured_content ps, t⟩)

/-!  Spec-side definitions used to compare code behaviour with the spec's
wording (refinement claims), and hypotheses for the amended statements. -/

/-- Two newlines when three or more were pending, else the pending run. -/
def emitNL (k : Nat) : Str := if 3 ≤ k then ['\n', '\n'] else List.replicate k '\n'

/-- Scanner for `specCollapseNNN`: `k` pending *consecutive* newlines. -/
def consecAuxNNN (k : Nat) : Str → Str
  | [] => emitNL k
  | c :: t =>
    if c = '\n' then consecAuxNNN (k + 1) t
    else emitNL k ++ c :: consecAuxNNN 0 t

/-- Modelled from the spec: "collapse 3-or-more consecutive newlines to
exactly two" — every maximal run of *consecutive* newlines of length ≥ 3
becomes exactly two newlines; all other characters (including newlines
separated by other whitespace) are preserved. -/
def specCollapseNNN (s : Str) : Str := consecAuxNNN 0 s

/-- Modelled from the spec: the `html` whitespace normalization as worded —
"collapse runs of horizontal whitespace to one space; collapse 3-or-more
consecutive newlines to exactly two; trim leading/trailing whitespace.
Newline structure otherwise preserved." -/
def specHtmlWs (s : Str) : Str := pyStrip (specCollapseNNN (collapseHT s))

/-- A newline sitting next to a non-newline whitespace character (the
configuration on which the code's regex and the spec's wording part ways). -/
def mixedPair (a b : Char) : Bool :=
  (a = '\n' && isPyWs b && !(b = '\n')) || (b = '\n' && isPyWs a && !(a = '\n'))

/-- No newline of the string is adjacent to a non-newline whitespace
character (every maximal whitespace run is all-newline or newline-free). -/
def homogWs : Str → Bool
  | a :: b :: t => !mixedPair a b && homogWs (b :: t)
  | _ => true

/-- Does a pattern list contain a malformed pattern? -/
def hasMalformed (ps : List Pat) : Bool :=
  ps.any (fun p => match p with | .malformed _ => true | .valid _ => false)

/-!  Observational equivalence of page sources: identical responses to
every query (C10). -/

/-- Two element handles answering every query identically. -/
def ElemEquiv (a b : Element) : Prop :=
  a.tag_name = b.tag_name ∧ a.eltext = b.eltext ∧
  (∀ s, a.get_attribute s = b.get_attribute s) ∧
  a.is_displayed = b.is_displayed ∧ a.is_enabled = b.is_enabled ∧
  (∀ s, a.find_elements_count s = b.find_elements_count s)

/-- Equal fallible element results, up to `ElemEquiv`. -/
def ExceptElemRel : Except String Element → Except String Element → Prop
  | .error e, .error f => e = f
  | .ok x, .ok y => ElemEquiv x y
  | _, _ => False

/-- Equal fallible element-list results, up to pointwise `ElemEquiv`. -/
def ExceptListRel : Except String (List Element) → Except String (List Element) → Prop
  | .error e, .error f => e = f
  | .ok l, .ok m => List.Forall₂ ElemEquiv l m
  | _, _ => False

/-- Two page sources answering every query identically. -/
def PSEquiv (p q : PageSource) : Prop :=
  p.page_source = q.page_source ∧ p.title = q.title ∧
  p.current_url = q.current_url ∧
  (∀ s, ExceptElemRel (p.find_element_tag s) (q.find_element_tag s)) ∧
  (∀ s, ExceptListRel (p.find_elements_tag s) (q.find_elements_tag s)) ∧
  (∀ s, ExceptListRel (p.find_elements_css s) (q.find_elements_css s))

/-!  Observation helpers on link entries (used to state the counter
invariants of `_extract_links_info`). -/

/-- Did this `all_links` entry come from a link with a non-empty `href`? -/
def entryHasHref : LinkEntry → Bool
  | .ok _ href _ _ _ _ _ _ => decide (href ≠ [])
  | .err _ _ => false

/-- Is this `all_links` entry marked external? -/
def entryIsExt : LinkEntry → Bool
  | .ok _ _ _ _ _ e _ _ => e
  | .err _ _ => false

/-- Is this `all_links` entry marked registration-related? -/
def entryIsReg : LinkEntry → Bool
  | .ok _ _ _ _ _ _ r _ => r
  | .err _ _ => false

/-- The `registration_links` record contributed by one `all_links` entry. -/
def entryRegs : LinkEntry → List RegLink
  | .ok i href text title _ _ isReg _ => if isReg then [⟨i, text, href, title⟩] else []
  | .err _ _ => []

/-- Is this character a newline? -/
def isNL (c : Char) : Bool := c = '\n'

/-- The head, if any, is not whitespace. -/
def headNotWs : Str → Bool
  | [] => true
  | c :: _ => !isPyWs c

/-- Whitespace-normal form of a line: every whitespace character is a
single space followed by a non-space — the output shape of `collapseWS`. -/
def collOk : Str → Bool
  | [] => true
  | c :: t => (!isPyWs c || (c = ' ' && headNotWs t)) && collOk t

/-!  Concrete page sources used to evaluate the theorems on closed
inputs. -/

/-- A well-behaved button-like element. -/
def elOk : Element where
  tag_name := .ok (strL "button")
  eltext := .ok (strL "  Click me  ")
  get_attribute := fun a => if a = strL "type" then .ok (some (strL "submit")) else .ok none
  is_displayed := .ok true
  is_enabled := .ok true
  find_elements_count := fun _ => .ok 0

/-- An element whose every query raises. -/
def elBad : Element where
  tag_name := .error "stale element"
  eltext := .error "stale element"
  get_attribute := fun _ => .error "stale element"
  is_displayed := .error "stale element"
  is_enabled := .error "stale element"
  find_elements_count := fun _ => .error "stale element"

/-- An anchor pointing at an external registration page. -/
def elLink : Element where
  tag_name := .ok (strL "a")
  eltext := .ok (strL "Register here")
  get_attribute := fun a =>
    if a = strL "href" then .ok (some (strL "http://other.example/register"))
    else .ok none
  is_displayed := .ok true
  is_enabled := .ok true
  find_elements_count := fun _ => .ok 0

/-- An anchor with no `href`. -/
def elAnchorPlain : Element where
  tag_name := .ok (strL "a")
  eltext := .ok (strL "plain")
  get_attribute := fun _ => .ok none
  is_displayed := .ok true
  is_enabled := .ok true
  find_elements_count := fun _ => .ok 0

/-- A small concrete page: one good and one broken form, 7 buttons and
5 submit inputs (so the 10-truncation bites), and three anchors (external
registration link, broken link, plain link). -/
def psDemo : PageSource where
  page_source := .ok (strL "<html><body>hi</body></html>")
  title := .ok (strL "Exam dates")
  current_url := .ok (strL "http://site.example/exams")
  find_element_tag := fun t =>
    if t = strL "body" then .ok elOk else .error "no such element"
  find_elements_tag := fun t =>
    if t = strL "form" then .ok [elOk, elBad]
    else if t = strL "button" then .ok (List.replicate 7 elOk)
    else if t = strL "a" then .ok [elLink, elBad, elAnchorPlain]
    else .ok []
  find_elements_css := fun _ => .ok (List.replicate 5 elOk)

/-!  ## Theorems -/

/-- C1. For every page source — including one whose every query raises —
`process_page` returns a `ProcessedContent` and never raises: the snapshot is
always the composition of the two (total) extraction phases; and if an
exception escaped both extractors, the outer handler would return the
snapshot with `raw = structured = {error: <message>}`. -/
theorem c1_process_page_never_raises :
    (∀ (proc : PConfig) (ps : PageSource) (t : Nat),
      process_page proc ps t =
        ⟨extract_raw_content proc ps, extract_structured_content ps, t⟩) ∧
    (∀ (t : Nat) (e : String),
      process_page_recover t (.error e) = ⟨.err e, .err e, t⟩) ∧
    (∀ (proc : PConfig) (t : Nat) (m : String),
      process_page proc (allFail m) t =
        ⟨.err m, .ok [] [] (.err ("links_extraction_failed: " ++ m)), t⟩) :=
  ⟨fun _ _ _ => rfl, fun _ _ => rfl, fun _ _ _ => rfl⟩

/-- C2. A failure of the raw phase degrades only `raw`: when the markup
getter throws, `raw` is exactly the single-key error mapping carrying the
exception message, while `structured` is unchanged — it still holds whatever
forms/buttons/links the (independent) queries produced. -/
theorem c2_phase_isolation :
    ∀ (proc : PConfig) (ps : PageSource) (e : String) (t : Nat),
      extract_raw_content proc { ps with page_source := .error e } = .err e ∧
      extract_structured_content { ps with page_source := .error e } =
        extract_structured_content ps ∧
      process_page proc { ps with page_source := .error e } t =
        ⟨.err e, extract_structured_content ps, t⟩ :=
  fun _ _ _ _ => ⟨rfl, rfl, rfl⟩

/-- C4, counterexample. The claim says a malformed noise pattern makes
processor construction fail.  It does not: construction stores the patterns
unvalidated and succeeds, and at first use the compilation error is raised
inside `_filter_noise_from_text` and swallowed there — the text comes back
verbatim (not even whitespace-normalized). -/
theorem c4_counterexample :
    mkProcessorE ⟨[.malformed "bad pattern"], true⟩ =
      .ok ⟨[.malformed "bad pattern"], true⟩ ∧
    filter_noise_from_text [.malformed "bad pattern"] (strL "a   b") (strL "text")
      = strL "a   b" :=
  ⟨rfl, rfl⟩

/-- Function `applyNoise` fails as soon as the pattern list contains a malformed
pattern (the loop reaches it, `re.sub` raises). -/
theorem applyNoise_error_of_hasMalformed :
    ∀ (pats : List Pat) (s : Str), hasMalformed pats = true →
      ∃ m, applyNoise pats s = .error m := by
  intro pats
  induction pats with
  | nil => intro s h; simp [hasMalformed] at h
  | cons p t ih =>
    intro s h
    cases p with
    | malformed m => exact ⟨m, rfl⟩
    | valid items =>
      have ht : hasMalformed t = true := by
        simpa [hasMalformed] using h
      exact ih _ ht

/-- C4, amended. Construction never validates the configured patterns
(it always succeeds), and a malformed pattern produces its compilation
error at first use inside normalization, where it is swallowed: the
original text is returned unchanged. -/
theorem c4_amended :
    (∀ cfg : PConfig, mkProcessorE cfg = .ok (mkProcessor cfg)) ∧
    (∀ (pats : List Pat) (text ct : Str), hasMalformed pats = true →
      filter_noise_from_text pats text ct = text) := by
  refine ⟨fun _ => rfl, fun pats text ct h => ?_⟩
  obtain ⟨m, hm⟩ := applyNoise_error_of_hasMalformed pats text h
  simp [filter_noise_from_text, hm]

/-- Witness for `c4_amended` at a concrete malformed configuration. -/
theorem c4_amended_witness :
    hasMalformed [.malformed "x"] = true ∧
    filter_noise_from_text [.malformed "x"] (strL "a  b") (strL "text") = strL "a  b" :=
  ⟨by decide, c4_amended.2 [.malformed "x"] (strL "a  b") (strL "text") (by decide)⟩

/-- C6, counterexample. `body_text` normalization with the default noise
patterns is not idempotent: on `"112:342:56"` the first pass removes the
time-of-day match `"12:34"` and splices the remainder into `"12:56"`, which
a second pass removes entirely. -/
theorem c6_counterexample :
    filter_noise_from_text defaultNoisePatterns
        (filter_noise_from_text defaultNoisePatterns (strL "112:342:56") (strL "body_text"))
        (strL "body_text") ≠
      filter_noise_from_text defaultNoisePatterns (strL "112:342:56") (strL "body_text") := by
  decide

/-- C8, counterexample. The input below contains `PHPSESSID=abc123;`;
the noise pass removes both pattern matches, but the removals splice the
surrounding text into a fresh `PHPSESSID=abc123;`, so the normalized output
still contains the forbidden substring. -/
theorem c8_counterexample :
    isSubstr (strL "PHPSESSID=abc123;")
        (strL "PHPSESSID=abc123;PHPSESSPHPSESSID=q;ID=abc123;") = true ∧
    isSubstr (strL "PHPSESSID=abc123;")
        (filter_noise_from_text defaultNoisePatterns
          (strL "PHPSESSID=abc123;PHPSESSPHPSESSID=q;ID=abc123;") (strL "text")) = true :=
  ⟨by decide, by decide⟩

/-- The whitespace stage maps the empty string to itself for every content
type. -/
theorem wsNormalize_nil (ct : Str) : wsNormalize ct [] = [] := by
  unfold wsNormalize
  split
  · rfl
  split
  · rfl
  · rfl

/-- C8, amended. With noise filtering enabled, normalizing the string
`"PHPSESSID=abc123;"` itself — under every content type — yields an output
free of that substring (the noise pass erases it completely); the guarantee
does not extend to arbitrary surrounding context (see the counterexample). -/
theorem c8_amended :
    ∀ ct : Str,
      isSubstr (strL "PHPSESSID=abc123;")
        (filter_noise_from_text defaultNoisePatterns (strL "PHPSESSID=abc123;") ct) = false := by
  intro ct
  have h : applyNoise defaultNoisePatterns (strL "PHPSESSID=abc123;") = .ok [] := rfl
  have h2 : filter_noise_from_text defaultNoisePatterns (strL "PHPSESSID=abc123;") ct
      = wsNormalize ct [] := by
    unfold filter_noise_from_text
    rw [h]
  rw [h2, wsNormalize_nil]
  decide

/-!  ### Whitespace lemmas for the `body_text` idempotence claim (C6) -/

/-- When the tail keeps something after `rstrip`, the head survives. -/
theorem rstrip_cons_ne (c : Char) (t : Str) (h : rstrip t ≠ []) :
    rstrip (c :: t) = c :: rstrip t := by
  cases h2 : rstrip t with
  | nil => exact absurd h2 h
  | cons r rs => simp [rstrip, h2]

/-- Function `rstrip` keeps a prefix of its input. -/
theorem rstrip_split_suffix : ∀ l : Str, ∃ suf, l = rstrip l ++ suf := by
  intro l
  induction l with
  | nil => exact ⟨[], rfl⟩
  | cons c t ih =>
    obtain ⟨suf, hsuf⟩ := ih
    cases h : rstrip t with
    | nil =>
      by_cases hc : isPyWs c
      · exact ⟨c :: t, by simp [rstrip, h, hc]⟩
      · refine ⟨t, ?_⟩
        simp [rstrip, h, hc]
    | cons r rs =>
      refine ⟨suf, ?_⟩
      rw [rstrip_cons_ne c t (by simp [h]), List.cons_append, ← hsuf]

/-- Characters of `collapseWSAux` output: an inserted space, or an input
character that is not whitespace. -/
theorem mem_collapseWSAux :
    ∀ (l : Str) (b : Bool) (c : Char), c ∈ collapseWSAux b l →
      c = ' ' ∨ (c ∈ l ∧ isPyWs c = false) := by
  intro l
  induction l with
  | nil => intro b c h; simp [collapseWSAux] at h
  | cons a t ih =>
    intro b c h
    by_cases ha : isPyWs a
    · have h' : c = ' ' ∨ c ∈ collapseWSAux true t := by
        cases b with
        | false =>
          rw [show collapseWSAux false (a :: t) = ' ' :: collapseWSAux true t from by
            simp [collapseWSAux, ha]] at h
          exact List.mem_cons.mp h
        | true =>
          rw [show collapseWSAux true (a :: t) = collapseWSAux true t from by
            simp [collapseWSAux, ha]] at h
          exact Or.inr h
      rcases h' with h' | h'
      · exact Or.inl h'
      · rcases ih true c h' with h'' | ⟨hm, hw⟩
        · exact Or.inl h''
        · exact Or.inr ⟨List.mem_cons_of_mem _ hm, hw⟩
    · rw [show collapseWSAux b (a :: t) = a :: collapseWSAux false t from by
        simp [collapseWSAux, ha]] at h
      rcases List.mem_cons.mp h with h' | h'
      · subst h'
        exact Or.inr ⟨List.mem_cons_self _ _, by simpa using ha⟩
      · rcases ih false c h' with h'' | ⟨hm, hw⟩
        · exact Or.inl h''
        · exact Or.inr ⟨List.mem_cons_of_mem _ hm, hw⟩

/-- A cleaned line contains no newline. -/
theorem no_nl_clean (l : Str) : '\n' ∉ pyStrip (collapseWS l) := by
  intro h
  have h1 : '\n' ∈ collapseWS l := by
    have h2 : '\n' ∈ (collapseWS l).dropWhile isPyWs := by
      obtain ⟨suf, hsuf⟩ := rstrip_split_suffix ((collapseWS l).dropWhile isPyWs)
      rw [hsuf]
      exact List.mem_append_left _ h
    exact (List.dropWhile_sublist _).mem h2
  rcases mem_collapseWSAux l false '\n' h1 with h' | ⟨_, hw⟩
  · exact absurd h' (by decide)
  · exact absurd hw (by decide)

/-- Splitting a newline-free string on newlines gives one piece. -/
theorem splitNL_no_nl : ∀ l : Str, '\n' ∉ l → splitNL l = [l] := by
  intro l
  induction l with
  | nil => intro _; rfl
  | cons c t ih =>
    intro h
    have hc : ¬(c = '\n') := fun hc => h (hc ▸ List.mem_cons_self _ _)
    have ht : '\n' ∉ t := fun ht => h (List.mem_cons_of_mem _ ht)
    simp [splitNL, hc, ih ht]

/-- Splitting past a newline-free piece. -/
theorem splitNL_append : ∀ (a r : Str), '\n' ∉ a →
    splitNL (a ++ '\n' :: r) = a :: splitNL r := by
  intro a
  induction a with
  | nil => intro r _; simp [splitNL]
  | cons c t ih =>
    intro r h
    have hc : ¬(c = '\n') := fun hc => h (hc ▸ List.mem_cons_self _ _)
    have ht : '\n' ∉ t := fun ht => h (List.mem_cons_of_mem _ ht)
    simp [splitNL, hc, ih r ht]

/-- Function `split('\n')` inverts `'\n'.join` on non-empty lists of newline-free
pieces. -/
theorem splitNL_joinNL : ∀ L : List Str, L ≠ [] → (∀ l ∈ L, '\n' ∉ l) →
    splitNL (joinNL L) = L := by
  intro L
  induction L with
  | nil => intro h _; exact absurd rfl h
  | cons a t ih =>
    intro _ hnl
    cases t with
    | nil => exact splitNL_no_nl a (hnl a (List.mem_cons_self _ _))
    | cons b t' =>
      have ha : '\n' ∉ a := hnl a (List.mem_cons_self _ _)
      have ht : ∀ l ∈ b :: t', '\n' ∉ l := fun l hl => hnl l (List.mem_cons_of_mem _ hl)
      show splitNL (a ++ '\n' :: joinNL (b :: t')) = a :: (b :: t')
      rw [splitNL_append a _ ha, ih (by simp) ht]

/-- Heads of `collapseWSAux` in skipping mode are never whitespace. -/
theorem collapseWSAux_true_head : ∀ t : Str, collapseWSAux true t = [] ∨
    ∃ d r, collapseWSAux true t = d :: r ∧ isPyWs d = false := by
  intro t
  induction t with
  | nil => exact Or.inl rfl
  | cons c t ih =>
    by_cases hc : isPyWs c
    · simpa [collapseWSAux, hc] using ih
    · exact Or.inr ⟨c, collapseWSAux false t, by simp [collapseWSAux, hc], by simpa using hc⟩

/-- Whitespace-normal form passes to the tail. -/
theorem collOk_tail {c : Char} {t : Str} (h : collOk (c :: t) = true) : collOk t = true := by
  simp only [collOk, Bool.and_eq_true] at h
  exact h.2

/-- The `collapseWS` output is in whitespace-normal form. -/
theorem collOk_collapseWSAux : ∀ (l : Str) (b : Bool), collOk (collapseWSAux b l) = true := by
  intro l
  induction l with
  | nil => intro b; rfl
  | cons c t ih =>
    intro b
    by_cases hc : isPyWs c
    · cases b with
      | true => simpa [collapseWSAux, hc] using ih true
      | false =>
        rw [show collapseWSAux false (c :: t) = ' ' :: collapseWSAux true t from by
          simp [collapseWSAux, hc]]
        rcases collapseWSAux_true_head t with h0 | ⟨d, r, hd, hw⟩
        · rw [h0]; decide
        · have h := ih true
          rw [hd] at h ⊢
          simp [collOk, headNotWs, hw, h, collOk_tail h, show isPyWs ' ' = true from rfl]
    · rw [show collapseWSAux b (c :: t) = c :: collapseWSAux false t from by
        simp [collapseWSAux, hc]]
      have h := ih false
      simp [collOk, h, hc]

/-- Whitespace-normal form survives dropping a whitespace prefix. -/
theorem collOk_dropWhile : ∀ l : Str, collOk l = true →
    collOk (l.dropWhile isPyWs) = true := by
  intro l
  induction l with
  | nil => intro h; exact h
  | cons c t ih =>
    intro h
    by_cases hc : isPyWs c
    · rw [List.dropWhile_cons_of_pos hc]
      exact ih (collOk_tail h)
    · rwa [List.dropWhile_cons_of_neg hc]

/-- A non-whitespace head is preserved by cutting the string short. -/
theorem headNotWs_append_left (t l₂ : Str) (h : headNotWs (t ++ l₂) = true) :
    headNotWs t = true := by
  cases t with
  | nil => rfl
  | cons d t' => simpa [headNotWs] using h

/-- Whitespace-normal form restricts to prefixes. -/
theorem collOk_append_left : ∀ (l₁ l₂ : Str), collOk (l₁ ++ l₂) = true →
    collOk l₁ = true := by
  intro l₁
  induction l₁ with
  | nil => intro _ _; rfl
  | cons c t ih =>
    intro l₂ h
    have h1 : (!isPyWs c || (c = ' ' && headNotWs (t ++ l₂))) = true ∧
        collOk (t ++ l₂) = true := by
      simpa only [List.cons_append, collOk, Bool.and_eq_true] using h
    have hgoal : (!isPyWs c || (c = ' ' && headNotWs t)) = true := by
      rcases (by simpa only [Bool.or_eq_true] using h1.1 :
          (!isPyWs c) = true ∨ (c = ' ' && headNotWs (t ++ l₂)) = true) with h' | h'
      · simp [h']
      · have h2 : (decide (c = ' ')) = true ∧ headNotWs (t ++ l₂) = true := by
          simpa only [Bool.and_eq_true] using h'
        simp only [Bool.or_eq_true, Bool.and_eq_true]
        exact Or.inr ⟨h2.1, headNotWs_append_left t l₂ h2.2⟩
    show ((!isPyWs c || (c = ' ' && headNotWs t)) && collOk t) = true
    rw [hgoal, ih l₂ h1.2]
    rfl

/-- Whitespace-normal form survives `rstrip`. -/
theorem collOk_rstrip (l : Str) (h : collOk l = true) : collOk (rstrip l) = true := by
  obtain ⟨suf, hsuf⟩ := rstrip_split_suffix l
  rw [hsuf] at h
  exact collOk_append_left _ _ h

/-- On whitespace-normal input, `collapseWS` is the identity. -/
theorem collapseWSAux_id : ∀ l : Str,
    (collOk l = true → collapseWSAux false l = l) ∧
    (collOk l = true → headNotWs l = true → collapseWSAux true l = l) := by
  intro l
  induction l with
  | nil => exact ⟨fun _ => rfl, fun _ _ => rfl⟩
  | cons c t ih =>
    constructor
    · intro h
      have hA : (!isPyWs c || (c = ' ' && headNotWs t)) = true ∧ collOk t = true := by
        simpa only [collOk, Bool.and_eq_true] using h
      have ht := hA.2
      by_cases hc : isPyWs c
      · have h2 : c = ' ' ∧ headNotWs t = true := by
          rcases (by simpa only [Bool.or_eq_true] using hA.1 :
              (!isPyWs c) = true ∨ (c = ' ' && headNotWs t) = true) with h' | h'
          · exact absurd hc (by simpa using h')
          · simpa [Bool.and_eq_true, decide_eq_true_eq] using h'
        rw [show collapseWSAux false (c :: t) = ' ' :: collapseWSAux true t from by
          simp [collapseWSAux, hc]]
        rw [(ih.2 ht h2.2), h2.1]
      · simp [collapseWSAux, hc, ih.1 ht]
    · intro h hh
      have hc : ¬(isPyWs c = true) := by simpa [headNotWs] using hh
      have hA : collOk t = true := by
        have : (!isPyWs c || (c = ' ' && headNotWs t)) = true ∧ collOk t = true := by
          simpa only [collOk, Bool.and_eq_true] using h
        exact this.2
      simp [collapseWSAux, hc, ih.1 hA]

/-- The head of a whitespace-stripped string is not whitespace. -/
theorem headNotWs_dropWhile : ∀ l : Str, headNotWs (l.dropWhile isPyWs) = true := by
  intro l
  induction l with
  | nil => rfl
  | cons c t ih =>
    by_cases hc : isPyWs c
    · rwa [List.dropWhile_cons_of_pos hc]
    · rw [List.dropWhile_cons_of_neg hc]
      simpa [headNotWs] using hc

/-- Function `rstrip` keeps a non-whitespace head. -/
theorem headNotWs_rstrip (l : Str) (h : headNotWs l = true) :
    headNotWs (rstrip l) = true := by
  cases l with
  | nil => rfl
  | cons c t =>
    have hc : ¬(isPyWs c = true) := by simpa [headNotWs] using h
    cases h2 : rstrip t with
    | nil => simp [rstrip, h2, hc, headNotWs]
    | cons r rs => simp [rstrip, h2, headNotWs, hc]

/-- Appending a non-whitespace character is `rstrip`-stable. -/
theorem rstrip_append_nonws : ∀ (p : Str) (c : Char), isPyWs c = false →
    rstrip (p ++ [c]) = p ++ [c] := by
  intro p
  induction p with
  | nil => intro c hc; simp [rstrip, hc]
  | cons d p' ih =>
    intro c hc
    have h := ih c hc
    have hne : rstrip (p' ++ [c]) ≠ [] := by
      rw [h]; exact List.append_ne_nil_of_right_ne_nil _ (by simp)
    rw [List.cons_append, rstrip_cons_ne d _ hne, h]

/-- The `rstrip` output is empty or ends in a non-whitespace character. -/
theorem rstrip_ends : ∀ l : Str, rstrip l = [] ∨
    ∃ p c, rstrip l = p ++ [c] ∧ isPyWs c = false := by
  intro l
  induction l with
  | nil => exact Or.inl rfl
  | cons d t ih =>
    cases h2 : rstrip t with
    | nil =>
      by_cases hd : isPyWs d
      · exact Or.inl (by simp [rstrip, h2, hd])
      · exact Or.inr ⟨[], d, by simp [rstrip, h2, hd], by simpa using hd⟩
    | cons r rs =>
      rcases ih with h0 | ⟨p, c, hp, hc⟩
      · exact absurd h0 (by simp [h2])
      · refine Or.inr ⟨d :: p, c, ?_, hc⟩
        rw [rstrip_cons_ne d t (by simp [h2]), hp, List.cons_append]

/-- Function `rstrip` is idempotent. -/
theorem rstrip_idem (l : Str) : rstrip (rstrip l) = rstrip l := by
  rcases rstrip_ends l with h | ⟨p, c, hp, hc⟩
  · rw [h]; rfl
  · rw [hp]; exact rstrip_append_nonws p c hc

/-- A string with a non-whitespace head is `dropWhile`-stable. -/
theorem dropWhile_of_headNotWs (l : Str) (h : headNotWs l = true) :
    l.dropWhile isPyWs = l := by
  cases l with
  | nil => rfl
  | cons c t =>
    have hc : ¬(isPyWs c = true) := by simpa [headNotWs] using h
    exact List.dropWhile_cons_of_neg hc

/-- Cleaning a line (whitespace collapse then strip) is idempotent. -/
theorem clean_idem (l : Str) :
    pyStrip (collapseWS (pyStrip (collapseWS l))) = pyStrip (collapseWS l) := by
  have hy : collOk (collapseWS l) = true := collOk_collapseWSAux l false
  have hw : collOk ((collapseWS l).dropWhile isPyWs) = true := collOk_dropWhile _ hy
  have hwh : headNotWs ((collapseWS l).dropWhile isPyWs) = true := headNotWs_dropWhile _
  have hz : collOk (pyStrip (collapseWS l)) = true := collOk_rstrip _ hw
  have hzh : headNotWs (pyStrip (collapseWS l)) = true := headNotWs_rstrip _ hwh
  have h1 : collapseWS (pyStrip (collapseWS l)) = pyStrip (collapseWS l) :=
    (collapseWSAux_id _).1 hz
  show pyStrip (collapseWS (pyStrip (collapseWS l))) = pyStrip (collapseWS l)
  rw [h1]
  show rstrip ((pyStrip (collapseWS l)).dropWhile isPyWs) = pyStrip (collapseWS l)
  rw [dropWhile_of_headNotWs _ hzh]
  exact rstrip_idem _

/-- The `body_text` branch of the whitespace stage, explicitly. -/
theorem wsNormalize_body (s : Str) :
    wsNormalize (strL "body_text") s =
      joinNL (((splitNL s).map (fun line => pyStrip (collapseWS line))).filter (· ≠ [])) := by
  unfold wsNormalize
  rw [if_neg (by decide), if_pos rfl]

/-- C6, amended. For a processor configured with an *empty* noise-pattern
list, `body_text` normalization is idempotent — the whitespace stage maps
every string to one of its own fixed points.  (With the default patterns it
is not idempotent, see the counterexample.) -/
theorem c6_amended : ∀ s : Str,
    filter_noise_from_text [] (filter_noise_from_text [] s (strL "body_text"))
        (strL "body_text")
      = filter_noise_from_text [] s (strL "body_text") := by
  intro s
  have hfil : ∀ x : Str, filter_noise_from_text [] x (strL "body_text") =
      joinNL (((splitNL x).map (fun line => pyStrip (collapseWS line))).filter (· ≠ [])) := by
    intro x
    show wsNormalize (strL "body_text") x = _
    exact wsNormalize_body x
  simp only [hfil]
  rcases eq_or_ne (((splitNL s).map (fun line => pyStrip (collapseWS line))).filter (· ≠ []))
      [] with h0 | hne
  · rw [h0]
    decide
  · set L := ((splitNL s).map (fun line => pyStrip (collapseWS line))).filter (· ≠ []) with hL
    have hmemL : ∀ l ∈ L, ∃ x, l = pyStrip (collapseWS x) := by
      intro l hl
      rw [hL] at hl
      obtain ⟨x, _, hx⟩ := List.mem_map.mp (List.mem_of_mem_filter hl)
      exact ⟨x, hx.symm⟩
    have hnl : ∀ l ∈ L, '\n' ∉ l := by
      intro l hl
      obtain ⟨x, hx⟩ := hmemL l hl
      rw [hx]
      exact no_nl_clean x
    rw [splitNL_joinNL L hne hnl]
    have hmap : L.map (fun line => pyStrip (collapseWS line)) = L := by
      have h1 : L.map (fun line => pyStrip (collapseWS line)) = L.map id := by
        apply List.map_congr_left
        intro l hl
        obtain ⟨x, hx⟩ := hmemL l hl
        rw [hx]
        exact clean_idem x
      rw [h1, List.map_id]
    rw [hmap]
    have hfilt : L.filter (· ≠ []) = L := by
      apply List.filter_eq_self.mpr
      intro a ha
      rw [hL] at ha
      have := (List.mem_filter.mp ha).2
      exact this
    rw [hfilt]

/-!  ### Enumeration and links-loop lemmas (C3, C5, C9) -/

/-- Reduction of `Except.bind` on a success. -/
theorem except_bind_ok (a : α) (f : α → Except String β) :
    (Except.ok a >>= f : Except String β) = f a := rfl

/-- Reduction of `Except.bind` on a failure. -/
theorem except_bind_error (e : String) (f : α → Except String β) :
    ((Except.error e : Except String α) >>= f) = .error e := rfl

/-- Reduction of `pure` on `Except`. -/
theorem except_pure (a : α) : (pure a : Except String α) = .ok a := rfl

/-- Enumerating preserves length. -/
theorem enumMapFrom_length (f : Nat → α → β) : ∀ (l : List α) (i : Nat),
    (enumMapFrom f i l).length = l.length := by
  intro l
  induction l with
  | nil => intro i; rfl
  | cons a t ih => intro i; simp [enumMapFrom, ih]

/-- Entry `i` of an enumeration over elements numbered from `k`. -/
theorem enumMapFrom_getElem? (f : Nat → α → β) : ∀ (l : List α) (k i : Nat),
    (enumMapFrom f k l)[i]? = l[i]?.map (f (k + i)) := by
  intro l
  induction l with
  | nil => intro k i; simp [enumMapFrom]
  | cons a t ih =>
    intro k i
    cases i with
    | zero => simp [enumMapFrom]
    | succ j =>
      simp only [enumMapFrom, List.getElem?_cons_succ]
      rw [ih (k + 1) j, show k + 1 + j = k + (j + 1) from by omega]

/-- Members of an enumeration are produced by the numbering function. -/
theorem mem_enumMapFrom (f : Nat → α → β) : ∀ (l : List α) (i : Nat) (b : β),
    b ∈ enumMapFrom f i l → ∃ j a, a ∈ l ∧ b = f j a := by
  intro l
  induction l with
  | nil => intro i b h; simp [enumMapFrom] at h
  | cons a t ih =>
    intro i b h
    rcases List.mem_cons.mp h with h' | h'
    · exact ⟨i, a, List.mem_cons_self _ _, h'⟩
    · obtain ⟨j, x, hx, hb⟩ := ih (i + 1) b h'
      exact ⟨j, x, List.mem_cons_of_mem _ hx, hb⟩

/-- Indices of an enumeration: a contiguous range starting at the first
index, provided the per-element builder stamps its given index. -/
theorem enumMapFrom_map_index {f : Nat → α → β} {idx : β → Nat}
    (hf : ∀ i a, idx (f i a) = i) : ∀ (l : List α) (i : Nat),
    (enumMapFrom f i l).map idx = List.range' i l.length := by
  intro l
  induction l with
  | nil => intro i; rfl
  | cons a t ih =>
    intro i
    simp only [enumMapFrom, List.map_cons, hf, ih, List.length_cons, List.range'_succ]

/-- Both constructors of a form entry carry the loop index. -/
theorem mkFormEntry_index (i : Nat) (f : Element) : (mkFormEntry i f).index = i := by
  unfold mkFormEntry
  cases h : readForm f with
  | ok v =>
    obtain ⟨a, m, fid, cls, ic, bc, vis, tx⟩ := v
    rfl
  | error e => rfl

/-- Both constructors of a button entry carry the loop index. -/
theorem mkButtonEntry_index (i : Nat) (el : Element) : (mkButtonEntry i el).index = i := by
  unfold mkButtonEntry
  cases h : readButton el with
  | ok v =>
    obtain ⟨tag, ty, txt, bid, cls, vis, en⟩ := v
    rfl
  | error e => rfl

/-- Both constructors of a link entry carry the loop index. -/
theorem mkLinkEntry_index (dom : Str) (i : Nat) (l : Element) :
    (mkLinkEntry dom i l).index = i := by
  unfold mkLinkEntry
  cases h : readLink l with
  | ok v =>
    obtain ⟨href, text, title, target, vis⟩ := v
    rfl
  | error e => rfl

/-- Closed form of the links loop: it extends the accumulators with the
contributions of the enumerated entries. -/
theorem linksLoop_spec (dom : Str) : ∀ (ls : List Element) (i wh ext : Nat)
    (regs : List RegLink) (all : List LinkEntry),
    linksLoop dom i ls wh ext regs all =
      (wh + (enumMapFrom (mkLinkEntry dom) i ls).countP entryHasHref,
       ext + (enumMapFrom (mkLinkEntry dom) i ls).countP entryIsExt,
       regs ++ (enumMapFrom (mkLinkEntry dom) i ls).flatMap entryRegs,
       all ++ enumMapFrom (mkLinkEntry dom) i ls) := by
  intro ls
  induction ls with
  | nil => intro i wh ext regs all; simp [linksLoop, enumMapFrom]
  | cons l t ih =>
    intro i wh ext regs all
    cases hm : mkLinkEntry dom i l with
    | err j m =>
      simp only [linksLoop, hm, ih]
      simp [enumMapFrom, hm, List.countP_cons, entryHasHref, entryIsExt, entryRegs,
        List.flatMap_cons, Prod.mk.injEq]
    | ok j href text title target isExt isReg vis =>
      simp only [linksLoop, hm, ih]
      simp only [enumMapFrom, hm, List.countP_cons, entryHasHref, entryIsExt, entryRegs,
        List.flatMap_cons, Prod.mk.injEq]
      refine ⟨?_, ?_, ?_, by simp⟩
      · by_cases hh : href = []
        · simp [hh]
        · simp [hh]
          omega
      · cases isExt
        · simp
        · simp
          omega
      · cases isReg <;> simp

/-- Inversion of a successful `_extract_links_info` run. -/
theorem extract_links_ok_inv (ps : PageSource) (tc wh ext : Nat)
    (regs : List RegLink) (all : List LinkEntry)
    (h : extract_links_info ps = .ok tc wh ext regs all) :
    ∃ links dom, ps.find_elements_tag (strL "a") = .ok links ∧
      ps.current_url = .ok dom ∧
      tc = links.length ∧ all = enumMapFrom (mkLinkEntry dom) 0 links ∧
      wh = all.countP entryHasHref ∧ ext = all.countP entryIsExt ∧
      regs = all.flatMap entryRegs := by
  cases hl : ps.find_elements_tag (strL "a") with
  | error e =>
    rw [show extract_links_info ps = .err ("links_extraction_failed: " ++ e) from by
      simp only [extract_links_info, hl, except_bind_error]] at h
    exact LinksResult.noConfusion h
  | ok links =>
    cases hu : ps.current_url with
    | error e =>
      rw [show extract_links_info ps = .err ("links_extraction_failed: " ++ e) from by
        simp only [extract_links_info, hl, hu, except_bind_ok, except_bind_error]] at h
      exact LinksResult.noConfusion h
    | ok dom =>
      have h2 : extract_links_info ps =
          .ok links.length
            ((enumMapFrom (mkLinkEntry dom) 0 links).countP entryHasHref)
            ((enumMapFrom (mkLinkEntry dom) 0 links).countP entryIsExt)
            ((enumMapFrom (mkLinkEntry dom) 0 links).flatMap entryRegs)
            (enumMapFrom (mkLinkEntry dom) 0 links) := by
        simp only [extract_links_info, hl, hu, except_bind_ok, except_pure,
          linksLoop_spec, Nat.zero_add, List.nil_append]
      rw [h2] at h
      obtain ⟨h3, h4, h5, h6, h7⟩ := by
        simpa only [LinksResult.ok.injEq] using h
      refine ⟨links, dom, rfl, rfl, h3.symm, h7.symm, ?_, ?_, ?_⟩
      · rw [← h4, h7]
      · rw [← h5, h7]
      · rw [← h6, h7]

/-- An external-marked entry has a non-empty `href` (the classifier only
fires inside `if href:`). -/
theorem entryIsExt_imp_hasHref (dom : Str) (j : Nat) (l : Element) :
    entryIsExt (mkLinkEntry dom j l) = true → entryHasHref (mkLinkEntry dom j l) = true := by
  unfold mkLinkEntry
  cases h : readLink l with
  | error e => intro h'; exact h'
  | ok v =>
    obtain ⟨href, text, title, target, vis⟩ := v
    simp only [entryIsExt, entryHasHref]
    intro h'
    have h1 := (Bool.and_eq_true _ _ ▸ h').1
    exact (Bool.and_eq_true _ _ ▸ h1).1

/-- A record contributed to `registration_links` comes from an `all_links`
entry with the same index, flagged `is_registration`. -/
theorem entryRegs_mem (e : LinkEntry) (r : RegLink) (h : r ∈ entryRegs e) :
    LinkEntry.index e = r.index ∧ entryIsReg e = true := by
  cases e with
  | err i m => simp [entryRegs] at h
  | ok i href text title target isExt isReg vis =>
    cases isReg with
    | false => simp [entryRegs] at h
    | true =>
      have : r = ⟨i, text, href, title⟩ := by simpa [entryRegs] using h
      subst this
      exact ⟨rfl, rfl⟩

/-- C3. On every successful link extraction: `with_href ≤ total_count`,
`external_links ≤ with_href`, the two counters count exactly the non-failed
entries with the respective property (so per-link failures — recorded as
`{index, error}` entries of `all_links` — never increment a counter),
`all_links` has one entry per anchor, and every `registration_links` record
has a matching `all_links` entry with the same index and
`is_registration = true`. -/
theorem c3_links_invariants :
    ∀ (ps : PageSource) (tc wh ext : Nat) (regs : List RegLink) (all : List LinkEntry),
      extract_links_info ps = .ok tc wh ext regs all →
      wh ≤ tc ∧ ext ≤ wh ∧
      wh = all.countP entryHasHref ∧ ext = all.countP entryIsExt ∧
      all.length = tc ∧
      (∀ r ∈ regs, ∃ e ∈ all, LinkEntry.index e = r.index ∧ entryIsReg e = true) := by
  intro ps tc wh ext regs all h
  obtain ⟨links, dom, hl, hu, htc, hall, hwh, hext, hregs⟩ :=
    extract_links_ok_inv ps tc wh ext regs all h
  have hlen : all.length = tc := by
    rw [hall, enumMapFrom_length, htc]
  have hmono : ext ≤ wh := by
    rw [hwh, hext]
    apply List.countP_mono_left
    intro e he hext'
    obtain ⟨j, a, _, hea⟩ := mem_enumMapFrom _ links 0 e (hall ▸ he)
    rw [hea] at hext' ⊢
    exact entryIsExt_imp_hasHref dom j a hext'
  refine ⟨?_, hmono, hwh, hext, hlen, ?_⟩
  · rw [hwh, ← hlen]
    exact List.countP_le_length _
  · intro r hr
    rw [hregs] at hr
    obtain ⟨e, he, hre⟩ := List.mem_flatMap.mp hr
    exact ⟨e, he, entryRegs_mem e r hre⟩

/-- C9. Whenever an enumeration itself succeeds, the produced sequence
has exactly one entry per enumerated element, and the entry in position `i`
— success record or `{index, error}` marker alike — carries `index = i`:
document order is preserved and indices are contiguous from 0.  (For
buttons the enumerated elements are the first 10 of buttons ++ submits.) -/
theorem c9_enumeration_order :
    ∀ ps : PageSource,
      ((extract_forms_info ps).map FormEntry.index =
        List.range (extract_forms_info ps).length) ∧
      ((extract_buttons_info ps).map ButtonEntry.index =
        List.range (extract_buttons_info ps).length) ∧
      (∀ fs, ps.find_elements_tag (strL "form") = .ok fs →
        (extract_forms_info ps).length = fs.length) ∧
      (∀ bs ss, ps.find_elements_tag (strL "button") = .ok bs →
        ps.find_elements_css (strL "input[type=\"submit\"]") = .ok ss →
        (extract_buttons_info ps).length = min (bs.length + ss.length) 10) ∧
      (∀ tc wh ext regs all, extract_links_info ps = .ok tc wh ext regs all →
        all.map LinkEntry.index = List.range all.length ∧ all.length = tc) := by
  intro ps
  refine ⟨?_, ?_, ?_, ?_, ?_⟩
  · unfold extract_forms_info
    cases hf : ps.find_elements_tag (strL "form") with
    | error e => rfl
    | ok fs =>
      rw [enumMapFrom_map_index mkFormEntry_index, enumMapFrom_length,
        List.range_eq_range']
  · unfold extract_buttons_info
    cases hb : (do
        let buttons ← ps.find_elements_tag (strL "button")
        let submits ← ps.find_elements_css (strL "input[type=\"submit\"]")
        pure (buttons ++ submits) : Except String (List Element)) with
    | error e => rfl
    | ok allInteractive =>
      rw [enumMapFrom_map_index mkButtonEntry_index, enumMapFrom_length,
        List.range_eq_range']
  · intro fs hf
    unfold extract_forms_info
    rw [hf, enumMapFrom_length]
  · intro bs ss hb hs
    unfold extract_buttons_info
    rw [show (do
        let buttons ← ps.find_elements_tag (strL "button")
        let submits ← ps.find_elements_css (strL "input[type=\"submit\"]")
        pure (buttons ++ submits) : Except String (List Element)) = .ok (bs ++ ss) from by
      simp only [hb, hs, except_bind_ok, except_pure]]
    rw [enumMapFrom_length, List.length_take, List.length_append]
    exact Nat.min_comm _ _
  · intro tc wh ext regs all h
    obtain ⟨links, dom, _, _, htc, hall, _, _, _⟩ :=
      extract_links_ok_inv ps tc wh ext regs all h
    constructor
    · rw [hall, enumMapFrom_map_index (mkLinkEntry_index dom), enumMapFrom_length,
        List.range_eq_range']
    · rw [hall, enumMapFrom_length, htc]

/-- Witness for `c3_links_invariants` on the concrete page `psDemo`
(3 anchors: an external registration link, a broken one, one without
`href`). -/
theorem c3_witness :
    extract_links_info psDemo = .ok 3 1 1
        [⟨0, strL "Register here", strL "http://other.example/register", []⟩]
        [.ok 0 (strL "http://other.example/register") (strL "Register here") [] [] true true true,
         .err 1 "extraction_failed: stale element",
         .ok 2 [] (strL "plain") [] [] false false true] ∧
    (1 ≤ 3 ∧ 1 ≤ 1 ∧
      1 = List.countP entryHasHref
        [.ok 0 (strL "http://other.example/register") (strL "Register here") [] [] true true true,
         .err 1 "extraction_failed: stale element",
         .ok 2 [] (strL "plain") [] [] false false true] ∧
      1 = List.countP entryIsExt
        [.ok 0 (strL "http://other.example/register") (strL "Register here") [] [] true true true,
         .err 1 "extraction_failed: stale element",
         .ok 2 [] (strL "plain") [] [] false false true] ∧
      List.length
        [LinkEntry.ok 0 (strL "http://other.example/register") (strL "Register here") [] [] true true true,
         .err 1 "extraction_failed: stale element",
         .ok 2 [] (strL "plain") [] [] false false true] = 3 ∧
      (∀ r ∈ [RegLink.mk 0 (strL "Register here") (strL "http://other.example/register") []],
        ∃ e ∈ [LinkEntry.ok 0 (strL "http://other.example/register") (strL "Register here") [] [] true true true,
               .err 1 "extraction_failed: stale element",
               .ok 2 [] (strL "plain") [] [] false false true],
          LinkEntry.index e = r.index ∧ entryIsReg e = true)) :=
  ⟨rfl, c3_links_invariants psDemo 3 1 1 _ _ rfl⟩

/-- Witness for `c9_enumeration_order` on the concrete page `psDemo`. -/
theorem c9_witness :
    ((extract_forms_info psDemo).map FormEntry.index =
      List.range (extract_forms_info psDemo).length) ∧
    (extract_forms_info psDemo).length = 2 ∧
    (extract_buttons_info psDemo).length = 10 :=
  ⟨(c9_enumeration_order psDemo).1,
   (c9_enumeration_order psDemo).2.2.1 [elOk, elBad] rfl,
   (by
     have h := (c9_enumeration_order psDemo).2.2.2.1
       (List.replicate 7 elOk) (List.replicate 5 elOk) rfl rfl
     simpa using h)⟩

/-- C5. On every page whose button and submit-input enumerations
succeed: the `buttons` sequence holds at most 10 entries — exactly
`min (buttons + submits) 10` — entry `i` is built from element `i` of the
concatenation buttons-then-submits (so buttons precede submit-inputs at the
truncation boundary), and every successful entry's display text is at most
100 characters. -/
theorem c5_buttons_truncation :
    ∀ (ps : PageSource) (bs ss : List Element),
      ps.find_elements_tag (strL "button") = .ok bs →
      ps.find_elements_css (strL "input[type=\"submit\"]") = .ok ss →
      (extract_buttons_info ps).length = min (bs.length + ss.length) 10 ∧
      (extract_buttons_info ps).length ≤ 10 ∧
      (∀ i b, i < 10 → bs[i]? = some b →
        (extract_buttons_info ps)[i]? = some (mkButtonEntry i b)) ∧
      (∀ j b, bs.length + j < 10 → ss[j]? = some b →
        (extract_buttons_info ps)[bs.length + j]? =
          some (mkButtonEntry (bs.length + j) b)) ∧
      (∀ i tag ty tx bid cls vis en,
        ButtonEntry.ok i tag ty tx bid cls vis en ∈ extract_buttons_info ps →
        tx.length ≤ 100) := by
  intro ps bs ss hb hs
  have hbtn : extract_buttons_info ps = enumMapFrom mkButtonEntry 0 ((bs ++ ss).take 10) := by
    unfold extract_buttons_info
    rw [show (do
        let buttons ← ps.find_elements_tag (strL "button")
        let submits ← ps.find_elements_css (strL "input[type=\"submit\"]")
        pure (buttons ++ submits) : Except String (List Element)) = .ok (bs ++ ss) from by
      simp only [hb, hs, except_bind_ok, except_pure]]
  refine ⟨?_, ?_, ?_, ?_, ?_⟩
  · rw [hbtn, enumMapFrom_length, List.length_take, List.length_append]
    exact Nat.min_comm _ _
  · rw [hbtn, enumMapFrom_length, List.length_take]
    exact Nat.min_le_left _ _
  · intro i b h10 hib
    have hi : i < bs.length := by
      by_contra h'
      rw [List.getElem?_eq_none (by omega)] at hib
      exact Option.noConfusion hib
    rw [hbtn, enumMapFrom_getElem?, List.getElem?_take, if_pos h10,
      List.getElem?_append, if_pos hi, hib]
    simp
  · intro j b hj hjb
    have hlt : j < ss.length := by
      by_contra h'
      rw [List.getElem?_eq_none (by omega)] at hjb
      exact Option.noConfusion hjb
    rw [hbtn, enumMapFrom_getElem?, List.getElem?_take, if_pos hj,
      List.getElem?_append, if_neg (by omega),
      show bs.length + j - bs.length = j from by omega, hjb]
    simp
  · intro i tag ty tx bid cls vis en hmem
    rw [hbtn] at hmem
    obtain ⟨j, a, _, hba⟩ := mem_enumMapFrom _ _ 0 _ hmem
    unfold mkButtonEntry at hba
    cases hr : readButton a with
    | error e =>
      rw [hr] at hba
      exact ButtonEntry.noConfusion hba
    | ok v =>
      obtain ⟨tg, ty', txt, bid', cls', vis', en'⟩ := v
      rw [hr] at hba
      obtain ⟨_, _, _, h4, _⟩ := by
        simpa only [ButtonEntry.ok.injEq] using hba
      rw [h4, List.length_take]
      exact Nat.min_le_left _ _

/-- Witness for `c5_buttons_truncation`: `psDemo` has 7 buttons and
5 submit inputs, so extraction truncates to 10 entries. -/
theorem c5_witness :
    psDemo.find_elements_tag (strL "button") = .ok (List.replicate 7 elOk) ∧
    psDemo.find_elements_css (strL "input[type=\"submit\"]") = .ok (List.replicate 5 elOk) ∧
    (extract_buttons_info psDemo).length = 10 ∧
    (extract_buttons_info psDemo).length ≤ 10 :=
  ⟨rfl, rfl,
   by simpa using (c5_buttons_truncation psDemo (List.replicate 7 elOk)
     (List.replicate 5 elOk) rfl rfl).1,
   (c5_buttons_truncation psDemo (List.replicate 7 elOk)
     (List.replicate 5 elOk) rfl rfl).2.1⟩

/-!  ### Observational determinism (C10) -/

/-- Equivalent elements answer the form reads identically. -/
theorem readForm_congr {a b : Element} (h : ElemEquiv a b) : readForm a = readForm b := by
  obtain ⟨h1, h2, h3, h4, h5, h6⟩ := h
  unfold readForm
  simp only [h1, h2, h3, h4, h5, h6]

/-- Equivalent elements answer the button reads identically. -/
theorem readButton_congr {a b : Element} (h : ElemEquiv a b) : readButton a = readButton b := by
  obtain ⟨h1, h2, h3, h4, h5, h6⟩ := h
  unfold readButton
  simp only [h1, h2, h3, h4, h5, h6]

/-- Equivalent elements answer the link reads identically. -/
theorem readLink_congr {a b : Element} (h : ElemEquiv a b) : readLink a = readLink b := by
  obtain ⟨h1, h2, h3, h4, h5, h6⟩ := h
  unfold readLink
  simp only [h1, h2, h3, h4, h5, h6]

/-- Equivalent elements give equal form entries. -/
theorem mkFormEntry_congr (i : Nat) {a b : Element} (h : ElemEquiv a b) :
    mkFormEntry i a = mkFormEntry i b := by
  unfold mkFormEntry
  rw [readForm_congr h]

/-- Equivalent elements give equal button entries. -/
theorem mkButtonEntry_congr (i : Nat) {a b : Element} (h : ElemEquiv a b) :
    mkButtonEntry i a = mkButtonEntry i b := by
  unfold mkButtonEntry
  rw [readButton_congr h]

/-- Equivalent elements give equal link entries. -/
theorem mkLinkEntry_congr (dom : Str) (i : Nat) {a b : Element} (h : ElemEquiv a b) :
    mkLinkEntry dom i a = mkLinkEntry dom i b := by
  unfold mkLinkEntry
  rw [readLink_congr h]

/-- Enumeration respects any relation the builder respects. -/
theorem enumMapFrom_congr {R : α → α → Prop} {f : Nat → α → β}
    (hf : ∀ i a b, R a b → f i a = f i b) :
    ∀ {l m : List α}, List.Forall₂ R l m →
      ∀ i, enumMapFrom f i l = enumMapFrom f i m := by
  intro l m hlm
  induction hlm with
  | nil => intro i; rfl
  | cons hab _ ih => intro i; simp only [enumMapFrom, hf _ _ _ hab, ih]

/-- Relation `Forall₂` passes through `take`. -/
theorem forall₂_take {R : α → β → Prop} : ∀ {l : List α} {m : List β},
    List.Forall₂ R l m → ∀ n, List.Forall₂ R (l.take n) (m.take n) := by
  intro l m h
  induction h with
  | nil => intro n; simp
  | cons hab _ ih =>
    intro n
    cases n with
    | zero => simp
    | succ k => simpa using List.Forall₂.cons hab (ih k)

/-- Equivalent pages give equal body text. -/
theorem get_body_text_congr {p q : PageSource} (h : PSEquiv p q) :
    get_body_text p = get_body_text q := by
  have h4 := h.2.2.2.1 (strL "body")
  unfold get_body_text
  cases hp : p.find_element_tag (strL "body") with
  | error e =>
    cases hq : q.find_element_tag (strL "body") with
    | error f => rfl
    | ok y => rw [hp, hq] at h4; simp [ExceptElemRel] at h4
  | ok x =>
    cases hq : q.find_element_tag (strL "body") with
    | error f => rw [hp, hq] at h4; simp [ExceptElemRel] at h4
    | ok y =>
      rw [hp, hq] at h4
      have h2 : x.eltext = y.eltext := h4.2.1
      simp only [except_bind_ok, h2]

/-- Equivalent pages give equal raw mappings. -/
theorem extract_raw_congr (proc : PConfig) {p q : PageSource} (h : PSEquiv p q) :
    extract_raw_content proc p = extract_raw_content proc q := by
  unfold extract_raw_content
  rw [h.1, h.2.1, h.2.2.1, get_body_text_congr h]

/-- Equivalent pages give equal form sequences. -/
theorem extract_forms_congr {p q : PageSource} (h : PSEquiv p q) :
    extract_forms_info p = extract_forms_info q := by
  have hrel := h.2.2.2.2.1 (strL "form")
  unfold extract_forms_info
  cases hp : p.find_elements_tag (strL "form") with
  | error e =>
    cases hq : q.find_elements_tag (strL "form") with
    | error f => rfl
    | ok m => rw [hp, hq] at hrel; simp [ExceptListRel] at hrel
  | ok l =>
    cases hq : q.find_elements_tag (strL "form") with
    | error f => rw [hp, hq] at hrel; simp [ExceptListRel] at hrel
    | ok m =>
      rw [hp, hq] at hrel
      exact enumMapFrom_congr mkFormEntry_congr hrel 0

/-- Equivalent pages give equal button sequences. -/
theorem extract_buttons_congr {p q : PageSource} (h : PSEquiv p q) :
    extract_buttons_info p = extract_buttons_info q := by
  have hb := h.2.2.2.2.1 (strL "button")
  have hs := h.2.2.2.2.2 (strL "input[type=\"submit\"]")
  unfold extract_buttons_info
  cases hpb : p.find_elements_tag (strL "button") with
  | error e =>
    cases hqb : q.find_elements_tag (strL "button") with
    | error f => rfl
    | ok m => rw [hpb, hqb] at hb; simp [ExceptListRel] at hb
  | ok bl =>
    cases hqb : q.find_elements_tag (strL "button") with
    | error f => rw [hpb, hqb] at hb; simp [ExceptListRel] at hb
    | ok bm =>
      rw [hpb, hqb] at hb
      cases hps : p.find_elements_css (strL "input[type=\"submit\"]") with
      | error e =>
        cases hqs : q.find_elements_css (strL "input[type=\"submit\"]") with
        | error f => rfl
        | ok sm => rw [hps, hqs] at hs; simp [ExceptListRel] at hs
      | ok sl =>
        cases hqs : q.find_elements_css (strL "input[type=\"submit\"]") with
        | error f => rw [hps, hqs] at hs; simp [ExceptListRel] at hs
        | ok sm =>
          rw [hps, hqs] at hs
          simp only [except_bind_ok, except_pure]
          exact enumMapFrom_congr mkButtonEntry_congr
            (forall₂_take (List.rel_append hb hs) 10) 0

/-- Equivalent pages give equal link structures. -/
theorem extract_links_congr {p q : PageSource} (h : PSEquiv p q) :
    extract_links_info p = extract_links_info q := by
  have ha := h.2.2.2.2.1 (strL "a")
  unfold extract_links_info
  cases hpa : p.find_elements_tag (strL "a") with
  | error e =>
    cases hqa : q.find_elements_tag (strL "a") with
    | error f =>
      rw [hpa, hqa] at ha
      have : e = f := by simpa [ExceptListRel] using ha
      rw [this]
      rfl
    | ok m => rw [hpa, hqa] at ha; simp [ExceptListRel] at ha
  | ok l =>
    cases hqa : q.find_elements_tag (strL "a") with
    | error f => rw [hpa, hqa] at ha; simp [ExceptListRel] at ha
    | ok m =>
      rw [hpa, hqa] at ha
      rw [h.2.2.1]
      cases hu : q.current_url with
      | error e => rfl
      | ok dom =>
        simp only [except_bind_ok, except_pure, linksLoop_spec]
        rw [enumMapFrom_congr (mkLinkEntry_congr dom) ha 0,
          ha.length_eq]

/-- Equivalent pages give equal structured mappings. -/
theorem extract_structured_congr {p q : PageSource} (h : PSEquiv p q) :
    extract_structured_content p = extract_structured_content q := by
  unfold extract_structured_content
  rw [extract_forms_congr h, extract_buttons_congr h, extract_links_congr h]

/-- C10. `process_page` is deterministic up to the timestamp: for one
processor configuration, two page sources that answer every query
identically yield snapshots with equal `raw` and equal `structured`
mappings, whatever the two capture times are. -/
theorem c10_determinism :
    ∀ (proc : PConfig) (p q : PageSource) (t u : Nat), PSEquiv p q →
      (process_page proc p t).raw = (process_page proc q u).raw ∧
      (process_page proc p t).structured = (process_page proc q u).structured := by
  intro proc p q t u h
  constructor
  · show extract_raw_content proc p = extract_raw_content proc q
    exact extract_raw_congr proc h
  · show extract_structured_content p = extract_structured_content q
    exact extract_structured_congr h

/-- Elements are equivalent to themselves. -/
theorem elemEquiv_refl (e : Element) : ElemEquiv e e :=
  ⟨rfl, rfl, fun _ => rfl, rfl, rfl, fun _ => rfl⟩

/-- Fallible element results are equivalent to themselves. -/
theorem exceptElemRel_refl (x : Except String Element) : ExceptElemRel x x := by
  cases x with
  | error e => exact rfl
  | ok a => exact elemEquiv_refl a

/-- Fallible element-list results are equivalent to themselves. -/
theorem exceptListRel_refl (x : Except String (List Element)) : ExceptListRel x x := by
  cases x with
  | error e => exact rfl
  | ok l => exact List.forall₂_same.mpr (fun a _ => elemEquiv_refl a)

/-- Page sources are equivalent to themselves. -/
theorem psEquiv_refl (p : PageSource) : PSEquiv p p :=
  ⟨rfl, rfl, rfl, fun _ => exceptElemRel_refl _, fun _ => exceptListRel_refl _,
   fun _ => exceptListRel_refl _⟩

/-- Witness for `c10_determinism`: two runs over `psDemo` at different
timestamps agree on `raw` and `structured`. -/
theorem c10_witness :
    (process_page defaultProcessor psDemo 0).raw =
      (process_page defaultProcessor psDemo 5).raw ∧
    (process_page defaultProcessor psDemo 0).structured =
      (process_page defaultProcessor psDemo 5).structured :=
  c10_determinism defaultProcessor psDemo psDemo 0 5 (psEquiv_refl psDemo)

/-!  ### The `html` whitespace stage versus the spec's wording (C7) -/

/-- C7, counterexample. On `"a\n \n \nb"` (no noise-pattern matches,
three newlines separated by single spaces) the code's `html` normalization
collapses the whole whitespace span to two newlines, while the spec's
wording — horizontal-run collapse, 3-or-more *consecutive* newlines to two,
trim, newline structure otherwise preserved — leaves the string unchanged.
The regex `\n\s*\n\s*\n+` also fires on newlines separated by other
whitespace, removing newlines and spaces the claim says are preserved. -/
theorem c7_counterexample :
    filter_noise_from_text defaultNoisePatterns (strL "a\n \n \nb") (strL "html")
        = strL "a\n\nb" ∧
    specHtmlWs (strL "a\n \n \nb") = strL "a\n \n \nb" ∧
    strL "a\n\nb" ≠ strL "a\n \n \nb" :=
  ⟨by decide, by decide, by decide⟩

/-- Run characterization of the `\n\s*\n\s*\n+` scanner: the pending run
plus the leading whitespace of the input is flushed as one unit. -/
theorem nnnAux_eq : ∀ (s pend : Str),
    nnnAux pend s = nnnFlushRun (pend.reverse ++ s.takeWhile isPyWs) ++
      (match s.dropWhile isPyWs with
       | [] => []
       | c :: t => c :: nnnAux [] t) := by
  intro s
  induction s with
  | nil => intro pend; simp [nnnAux]
  | cons c t ih =>
    intro pend
    by_cases hc : isPyWs c
    · rw [show nnnAux pend (c :: t) = nnnAux (c :: pend) t from by simp [nnnAux, hc]]
      rw [ih (c :: pend)]
      rw [List.takeWhile_cons_of_pos hc, List.dropWhile_cons_of_pos hc]
      simp [List.append_assoc]
    · rw [show nnnAux pend (c :: t) = nnnFlushRun pend.reverse ++ c :: nnnAux [] t from by
        simp [nnnAux, hc]]
      rw [List.takeWhile_cons_of_neg hc, List.dropWhile_cons_of_neg hc]
      simp

/-- Run characterization of the consecutive-newline collapse. -/
theorem consecAux_eq : ∀ (s : Str) (k : Nat),
    consecAuxNNN k s = emitNL (k + (s.takeWhile isNL).length) ++
      (match s.dropWhile isNL with
       | [] => []
       | c :: t => c :: consecAuxNNN 0 t) := by
  intro s
  induction s with
  | nil => intro k; simp [consecAuxNNN]
  | cons c t ih =>
    intro k
    by_cases hc : c = '\n'
    · subst hc
      rw [show consecAuxNNN k ('\n' :: t) = consecAuxNNN (k + 1) t from by
        simp [consecAuxNNN]]
      rw [ih (k + 1)]
      rw [List.takeWhile_cons_of_pos (show isNL '\n' = true from rfl),
        List.dropWhile_cons_of_pos (show isNL '\n' = true from rfl)]
      rw [List.length_cons, show k + 1 + (t.takeWhile isNL).length =
        k + ((t.takeWhile isNL).length + 1) from by omega]
    · rw [show consecAuxNNN k (c :: t) = emitNL k ++ c :: consecAuxNNN 0 t from by
        simp [consecAuxNNN, hc]]
      rw [List.takeWhile_cons_of_neg (by simpa [isNL] using hc),
        List.dropWhile_cons_of_neg (by simpa [isNL] using hc)]
      simp

/-- Homogeneity passes to the tail. -/
theorem homogWs_tail : ∀ {c : Char} {t : Str}, homogWs (c :: t) = true →
    homogWs t = true := by
  intro c t h
  cases t with
  | nil => rfl
  | cons b t' =>
    have h2 : (!mixedPair c b && homogWs (b :: t')) = true := h
    exact ((Bool.and_eq_true _ _) ▸ h2).2

/-- Adjacent characters of a homogeneous string are never a mixed pair. -/
theorem homogWs_pair {a b : Char} {t : Str} (h : homogWs (a :: b :: t) = true) :
    mixedPair a b = false := by
  have h2 : (!mixedPair a b && homogWs (b :: t)) = true := h
  have h1 := ((Bool.and_eq_true _ _) ▸ h2).1
  simpa using h1

/-- Homogeneity survives dropping a prefix. -/
theorem homogWs_dropWhile (p : Char → Bool) : ∀ {l : Str}, homogWs l = true →
    homogWs (l.dropWhile p) = true := by
  intro l
  induction l with
  | nil => intro h; exact h
  | cons c t ih =>
    intro h
    by_cases hc : p c
    · rw [List.dropWhile_cons_of_pos hc]
      exact ih (homogWs_tail h)
    · rwa [List.dropWhile_cons_of_neg hc]

/-- In a homogeneous string starting with a newline, the maximal whitespace
run is exactly the maximal newline run. -/
theorem homog_run_nl : ∀ (t : Str), homogWs ('\n' :: t) = true →
    ('\n' :: t).takeWhile isPyWs = ('\n' :: t).takeWhile isNL ∧
    ('\n' :: t).dropWhile isPyWs = ('\n' :: t).dropWhile isNL := by
  intro t
  induction t with
  | nil => intro _; constructor <;> rfl
  | cons b t' ih =>
    intro h
    have hp := homogWs_pair h
    by_cases hb : b = '\n'
    · subst hb
      obtain ⟨h1, h2⟩ := ih (homogWs_tail h)
      constructor
      · rw [List.takeWhile_cons_of_pos (show isPyWs '\n' = true from rfl),
          List.takeWhile_cons_of_pos (show isNL '\n' = true from rfl), h1]
      · rw [List.dropWhile_cons_of_pos (show isPyWs '\n' = true from rfl),
          List.dropWhile_cons_of_pos (show isNL '\n' = true from rfl), h2]
    · have hwb : isPyWs b = false := by
        by_contra hw
        have hw' : isPyWs b = true := by simpa using hw
        simp [mixedPair, hw', hb] at hp
      constructor
      · rw [List.takeWhile_cons_of_pos (show isPyWs '\n' = true from rfl),
          List.takeWhile_cons_of_pos (show isNL '\n' = true from rfl),
          List.takeWhile_cons_of_neg (by simp [hwb]),
          List.takeWhile_cons_of_neg (by simp [isNL, hb])]
      · rw [List.dropWhile_cons_of_pos (show isPyWs '\n' = true from rfl),
          List.dropWhile_cons_of_pos (show isNL '\n' = true from rfl),
          List.dropWhile_cons_of_neg (by simp [hwb]),
          List.dropWhile_cons_of_neg (by simp [isNL, hb])]

/-- In a homogeneous string starting with non-newline whitespace, the
maximal whitespace run is newline-free. -/
theorem homog_take_nlfree : ∀ (t : Str) (c : Char), homogWs (c :: t) = true →
    isPyWs c = true → c ≠ '\n' →
    ∀ d ∈ (c :: t).takeWhile isPyWs, d ≠ '\n' := by
  intro t
  induction t with
  | nil =>
    intro c _ hws hnl d hd
    rw [List.takeWhile_cons_of_pos hws] at hd
    simp at hd
    subst hd
    exact hnl
  | cons b t' ih =>
    intro c h hws hnl d hd
    rw [List.takeWhile_cons_of_pos hws] at hd
    rcases List.mem_cons.mp hd with h' | h'
    · subst h'; exact hnl
    · by_cases hwb : isPyWs b
      · have hbnl : b ≠ '\n' := by
          intro hbe
          subst hbe
          have hmx := homogWs_pair h
          simp [mixedPair, hws, hnl] at hmx
        exact ih b (homogWs_tail h) hwb hbnl d h'
      · rw [List.takeWhile_cons_of_neg (by simpa using hwb)] at h'
        simp at h'

/-- The consecutive-newline collapse passes unchanged over a newline-free
prefix. -/
theorem consecAux_over_nlfree : ∀ (r y : Str), (∀ d ∈ r, d ≠ '\n') →
    consecAuxNNN 0 (r ++ y) = r ++ consecAuxNNN 0 y := by
  intro r
  induction r with
  | nil => intro y _; rfl
  | cons a r' ih =>
    intro y hr
    have ha : ¬(a = '\n') := hr a (List.mem_cons_self _ _)
    rw [List.cons_append,
      show consecAuxNNN 0 (a :: (r' ++ y)) = emitNL 0 ++ a :: consecAuxNNN 0 (r' ++ y) from by
        simp [consecAuxNNN, ha],
      ih y (fun d hd => hr d (List.mem_cons_of_mem _ hd))]
    simp [emitNL]

/-- On an all-newline run, the regex flush agrees with the spec's
"3 or more to exactly 2" rule. -/
theorem nnnFlushRun_all_nl : ∀ (w : Str), (∀ d ∈ w, d = '\n') →
    nnnFlushRun w = emitNL w.length := by
  intro w hw
  have hcnt : countNL w = w.length := by
    unfold countNL
    apply List.countP_eq_length.mpr
    intro a ha
    simpa using hw a ha
  unfold nnnFlushRun emitNL
  by_cases h3 : 3 ≤ countNL w
  · rw [if_pos h3, if_pos (show 3 ≤ w.length from by rw [← hcnt]; exact h3)]
    have htk : w.takeWhile (· ≠ '\n') = [] := by
      cases w with
      | nil => rfl
      | cons a w' =>
        have ha : a = '\n' := hw a (List.mem_cons_self _ _)
        rw [List.takeWhile_cons_of_neg (by simp [ha])]
    have hrv : w.reverse.takeWhile (· ≠ '\n') = [] := by
      cases hw2 : w.reverse with
      | nil => rfl
      | cons a w' =>
        have ha : a ∈ w := by
          rw [← List.mem_reverse, hw2]
          exact List.mem_cons_self _ _
        rw [List.takeWhile_cons_of_neg (by simp [hw a ha])]
    rw [htk, hrv]
    rfl
  · rw [if_neg h3, if_neg (show ¬3 ≤ w.length from fun hl => h3 (by rw [hcnt]; exact hl))]
    exact List.eq_replicate_iff.mpr ⟨rfl, hw⟩

/-- On homogeneous strings the code's newline substitution coincides with
the spec's consecutive-newline collapse. -/
theorem subNNN_eq_spec_aux : ∀ (n : Nat) (s : Str), s.length ≤ n →
    homogWs s = true → nnnAux [] s = consecAuxNNN 0 s := by
  intro n
  induction n with
  | zero =>
    intro s hlen _
    have : s = [] := List.eq_nil_of_length_eq_zero (by omega)
    subst this
    decide
  | succ n ih =>
    intro s hlen h
    cases s with
    | nil => decide
    | cons c t =>
      by_cases hws : isPyWs c
      · by_cases hnl : c = '\n'
        · subst hnl
          obtain ⟨hT, hD⟩ := homog_run_nl t h
          rw [nnnAux_eq ('\n' :: t) [], consecAux_eq ('\n' :: t) 0]
          rw [List.reverse_nil, List.nil_append, hT, hD]
          rw [nnnFlushRun_all_nl _ (fun d hd => by
            simpa [isNL] using List.mem_takeWhile_imp hd), Nat.zero_add]
          congr 1
          cases hd : ('\n' :: t).dropWhile isNL with
          | nil => rfl
          | cons e t' =>
            show e :: nnnAux [] t' = e :: consecAuxNNN 0 t'
            congr 1
            apply ih
            · have hl1 : (('\n' :: t).dropWhile isNL).length ≤ ('\n' :: t).length :=
                (List.dropWhile_sublist isNL).length_le
              rw [hd] at hl1
              simp only [List.length_cons] at hl1 hlen ⊢
              omega
            · have hhd : homogWs (('\n' :: t).dropWhile isNL) = true := by
                rw [← hD]
                exact homogWs_dropWhile isPyWs h
              rw [hd] at hhd
              exact homogWs_tail hhd
        · have hnlf := homog_take_nlfree t c h hws hnl
          rw [nnnAux_eq (c :: t) []]
          rw [List.reverse_nil, List.nil_append]
          have hc0 : countNL ((c :: t).takeWhile isPyWs) = 0 := by
            unfold countNL
            apply List.countP_eq_zero.mpr
            intro a ha
            simpa using hnlf a ha
          rw [show nnnFlushRun ((c :: t).takeWhile isPyWs) =
              (c :: t).takeWhile isPyWs from by
            unfold nnnFlushRun
            rw [hc0]
            simp]
          have hs2 := consecAux_over_nlfree ((c :: t).takeWhile isPyWs)
            ((c :: t).dropWhile isPyWs) hnlf
          rw [List.takeWhile_append_dropWhile] at hs2
          rw [hs2]
          congr 1
          cases hd : (c :: t).dropWhile isPyWs with
          | nil => rfl
          | cons e t' =>
            have hens : isPyWs e = false := by
              have hh := headNotWs_dropWhile (c :: t)
              rw [hd] at hh
              simpa [headNotWs] using hh
            have hennl : ¬(e = '\n') := by
              intro he
              subst he
              exact absurd hens (by decide)
            rw [show consecAuxNNN 0 (e :: t') = emitNL 0 ++ e :: consecAuxNNN 0 t' from by
              simp [consecAuxNNN, hennl]]
            rw [show emitNL 0 = [] from by decide, List.nil_append]
            show e :: nnnAux [] t' = e :: consecAuxNNN 0 t'
            congr 1
            apply ih
            · have hl1 : ((c :: t).dropWhile isPyWs).length ≤ (c :: t).length :=
                (List.dropWhile_sublist isPyWs).length_le
              rw [hd] at hl1
              simp only [List.length_cons] at hl1 hlen ⊢
              omega
            · have hhd : homogWs ((c :: t).dropWhile isPyWs) = true :=
                homogWs_dropWhile isPyWs h
              rw [hd] at hhd
              exact homogWs_tail hhd
      · have hcnl : ¬(c = '\n') := by
          intro he
          subst he
          exact hws rfl
        rw [show nnnAux [] (c :: t) = nnnFlushRun [] ++ c :: nnnAux [] t from by
          simp [nnnAux, hws]]
        rw [show consecAuxNNN 0 (c :: t) = emitNL 0 ++ c :: consecAuxNNN 0 t from by
          simp [consecAuxNNN, hcnl]]
        rw [show nnnFlushRun [] = [] from by decide, show emitNL 0 = [] from by decide]
        rw [ih t (by simp only [List.length_cons] at hlen; omega) (homogWs_tail h)]

/-- The head of a `dropWhile` result fails the predicate. -/
theorem dropWhile_head_neg (p : Char → Bool) : ∀ (l : Str) (e : Char) (t' : Str),
    l.dropWhile p = e :: t' → p e = false := by
  intro l
  induction l with
  | nil => intro e t' h; exact absurd h (by simp)
  | cons c t ih =>
    intro e t' h
    by_cases hc : p c
    · rw [List.dropWhile_cons_of_pos hc] at h
      exact ih e t' h
    · rw [List.dropWhile_cons_of_neg hc] at h
      injection h with h1 _
      subst h1
      simpa using hc

/-- Function `collapseHT` in skipping mode restarts after the horizontal run. -/
theorem collapseHT_true_skip : ∀ t : Str,
    collapseHTAux true t = collapseHTAux false (t.dropWhile isHT) := by
  intro t
  induction t with
  | nil => rfl
  | cons c t ih =>
    by_cases hc : isHT c
    · rw [show collapseHTAux true (c :: t) = collapseHTAux true t from by
        simp [collapseHTAux, hc], ih, List.dropWhile_cons_of_pos hc]
    · rw [List.dropWhile_cons_of_neg hc]
      simp [collapseHTAux, hc]

/-- Head analysis of `collapseHT`. -/
theorem collapseHT_head : ∀ l : Str,
    (l = [] ∧ collapseHTAux false l = []) ∨
    (∃ c t, l = c :: t ∧ isHT c = true ∧ ∃ r, collapseHTAux false l = ' ' :: r) ∨
    (∃ c t, l = c :: t ∧ isHT c = false ∧ ∃ r, collapseHTAux false l = c :: r) := by
  intro l
  cases l with
  | nil => exact Or.inl ⟨rfl, rfl⟩
  | cons c t =>
    by_cases hc : isHT c
    · exact Or.inr (Or.inl ⟨c, t, rfl, hc, collapseHTAux true t, by simp [collapseHTAux, hc]⟩)
    · exact Or.inr (Or.inr ⟨c, t, rfl, by simpa using hc, collapseHTAux false t,
        by simp [collapseHTAux, hc]⟩)

/-- After a horizontal run in a homogeneous string, no newline follows
directly. -/
theorem homog_ht_then_nl : ∀ (t : Str) (c : Char), homogWs (c :: t) = true →
    isHT c = true → ∀ e t', t.dropWhile isHT = e :: t' → e ≠ '\n' := by
  intro t
  induction t with
  | nil =>
    intro c _ _ e t' he
    exact absurd he (by simp)
  | cons b tb ih =>
    intro c h hc e t' he
    by_cases hb : isHT b
    · rw [List.dropWhile_cons_of_pos hb] at he
      exact ih b (homogWs_tail h) hb e t' he
    · rw [List.dropWhile_cons_of_neg hb] at he
      injection he with he1 _
      subst he1
      intro henl
      subst henl
      have hcw : isPyWs c = true := by
        rcases (by simpa [isHT] using hc : c = ' ' ∨ c = '\t') with h' | h'
        · subst h'; rfl
        · subst h'; rfl
      have hcnl : c ≠ '\n' := by
        intro hce
        subst hce
        simp [isHT] at hc
      have hmx := homogWs_pair h
      simp [mixedPair, hcw, hcnl] at hmx

/-- Homogeneity is preserved by the horizontal-whitespace collapse. -/
theorem homog_collapseHT_aux : ∀ (n : Nat) (s : Str), s.length ≤ n →
    homogWs s = true → homogWs (collapseHTAux false s) = true := by
  intro n
  induction n with
  | zero =>
    intro s hlen _
    have : s = [] := List.eq_nil_of_length_eq_zero (by omega)
    subst this
    rfl
  | succ n ih =>
    intro s hlen h
    cases s with
    | nil => rfl
    | cons c t =>
      by_cases hc : isHT c
      · rw [show collapseHTAux false (c :: t) = ' ' :: collapseHTAux true t from by
          simp [collapseHTAux, hc], collapseHT_true_skip]
        have hd : homogWs (t.dropWhile isHT) = true :=
          homogWs_dropWhile isHT (homogWs_tail h)
        have hlen2 : (t.dropWhile isHT).length ≤ n := by
          have := (List.dropWhile_sublist isHT (l := t)).length_le
          simp only [List.length_cons] at hlen
          omega
        have hX := ih (t.dropWhile isHT) hlen2 hd
        rcases collapseHT_head (t.dropWhile isHT) with ⟨_, h0⟩ | ⟨e, te, hte, hhte, r, hr⟩ |
            ⟨e, te, hte, hhte, r, hr⟩
        · rw [h0]; rfl
        · exact absurd hhte (by rw [dropWhile_head_neg isHT t e te hte]; simp)
        · rw [hr]
          have henl : e ≠ '\n' := homog_ht_then_nl t c h hc e te hte
          have hpair : mixedPair ' ' e = false := by
            simp [mixedPair, henl]
          rw [hr] at hX
          exact (Bool.and_eq_true _ _).symm ▸ ⟨by simp [hpair], hX⟩
      · rw [show collapseHTAux false (c :: t) = c :: collapseHTAux false t from by
          simp [collapseHTAux, hc]]
        have hY := ih t (by simp only [List.length_cons] at hlen; omega) (homogWs_tail h)
        rcases collapseHT_head t with ⟨ht0, h0⟩ | ⟨e, te, hte, hhte, r, hr⟩ |
            ⟨e, te, hte, hhte, r, hr⟩
        · rw [h0]; rfl
        · rw [hr]
          have hcnl : ¬(c = '\n') := by
            intro hce
            subst hce
            subst hte
            have hmx := homogWs_pair h
            have hew : isPyWs e = true := by
              rcases (by simpa [isHT] using hhte : e = ' ' ∨ e = '\t') with h' | h'
              · subst h'; rfl
              · subst h'; rfl
            have henl : e ≠ '\n' := by
              intro hee
              subst hee
              simp [isHT] at hhte
            simp [mixedPair, hew, henl] at hmx
          have hpair : mixedPair c ' ' = false := by
            simp [mixedPair, hcnl]
          rw [hr] at hY
          exact (Bool.and_eq_true _ _).symm ▸ ⟨by simp [hpair], hY⟩
        · rw [hr]
          subst hte
          have hmx := homogWs_pair h
          have hpair : mixedPair c e = false := hmx
          rw [hr] at hY
          exact (Bool.and_eq_true _ _).symm ▸ ⟨by simp [hpair], hY⟩

/-- The `html` branch of the whitespace stage, explicitly. -/
theorem wsNormalize_html (s : Str) :
    wsNormalize (strL "html") s = pyStrip (subNNN (collapseHT s)) := by
  unfold wsNormalize
  rw [if_pos rfl]

/-- C7, amended. For every input in which no newline is adjacent to a
non-newline whitespace character, the code's `html` whitespace
normalization does exactly what the spec's wording says: collapse
horizontal-whitespace runs to one space, collapse every run of 3 or more
consecutive newlines to exactly two, trim — and newline structure is
otherwise preserved.  (On inputs with mixed whitespace runs the code's
regex also collapses newlines separated by other whitespace; see the
counterexample.) -/
theorem c7_amended : ∀ s : Str, homogWs s = true →
    wsNormalize (strL "html") s = specHtmlWs s := by
  intro s h
  rw [wsNormalize_html]
  unfold specHtmlWs specCollapseNNN
  have hh : homogWs (collapseHT s) = true :=
    homog_collapseHT_aux s.length s le_rfl h
  rw [show subNNN (collapseHT s) = nnnAux [] (collapseHT s) from rfl]
  rw [subNNN_eq_spec_aux (collapseHT s).length (collapseHT s) le_rfl hh]

/-- Witness for `c7_amended` on a concrete homogeneous string: tabs and
spaces collapse, the triple newline becomes a double one. -/
theorem c7_amended_witness :
    homogWs (strL "a \t b\n\n\nc") = true ∧
    wsNormalize (strL "html") (strL "a \t b\n\n\nc") = specHtmlWs (strL "a \t b\n\n\nc") :=
  ⟨by decide, c7_amended (strL "a \t b\n\n\nc") (by decide)⟩

end DeExamBot
